import Mathlib

/-!
Shallow embedding of `intertext_graph/itgraph.py` (class `Node`, `Etype`, `Edge`,
`IntertextDocument`, `SpanNode`, `IntertextEncoder`) from the UKPLab/intertext-graph
repository, together with theorems settling the frozen claims about it.

Modelling conventions:
* Python objects referenced by `uuid4` identities are modelled by `Nat` uuids.
  The nondeterministic-but-unique `uuid4()` supply is modelled by a counter
  field `fresh` on the document; uuids of externally constructed nodes/edges
  are arguments, with freshness hypotheses where the code relies on uniqueness.
* Python dicts (`_nodes`, `_edges`, `_node_ix_to_uuid`, `_edge_ix_to_uuid`,
  `meta`) are association lists preserving insertion order, which is exactly
  the iteration order Python guarantees.
* Python exceptions (`AssertionError` for the duplicate-index asserts,
  `KeyError`/`ValueError` for missing lookups) are modelled by the error
  taxonomy of the specification: `DuplicateIndex`, `NotFound`,
  `IncomparableNodes`.  Mutating operations return the document state reached
  at the moment the exception is raised, paired with `Option Err`.
* `json.dumps`/`json.loads` round-trips the meta/label values exactly, so the
  text layer is modelled away: serialization maps a document to the structured
  record that `to_json` builds and `_from_json` consumes.
-/

/-- ASCII whitespace stripped by Python `str.strip()` (space, tab, newline,
carriage return, vertical tab, form feed). -/
def pyIsSpace (c : Char) : Bool :=
  c = ' ' || c = '\t' || c = '\n' || c = '\r' || c = Char.ofNat 11 || c = Char.ofNat 12

/-- Python `s.strip()`. -/
def pyStrip (s : String) : String :=
  String.mk (((s.toList.dropWhile pyIsSpace).reverse.dropWhile pyIsSpace).reverse)

/-- Python slicing `s[a:b]` for non-negative bounds: the characters at
positions `a, …, b-1`, clamped to the length of the string. -/
def pySlice (s : String) (a b : Nat) : String :=
  String.mk ((s.toList.drop a).take (b - a))

/-- Values stored in `meta` / `label` dicts (the JSON-serializable payloads the
claims exercise). -/
inductive MVal
  | int (i : Int)
  | str (s : String)
  | bool (b : Bool)
  | null
  deriving DecidableEq, Repr

/-- A Python dict with string keys, in insertion order. -/
abbrev Meta := List (String × MVal)

/-- First-match association-list lookup: Python `d[k]` (keys are unique in a
dict, so first match is the match). -/
def alLookup {κ β : Type} [DecidableEq κ] : List (κ × β) → κ → Option β
  | [], _ => none
  | p :: t, k => if p.1 = k then some p.2 else alLookup t k

/-- Replace the value stored under key `k`, keeping its position. -/
def alReplace {κ β : Type} [DecidableEq κ] : List (κ × β) → κ → β → List (κ × β)
  | [], _, _ => []
  | p :: t, k, v => (if p.1 = k then (k, v) else p) :: alReplace t k v

/-- Python `d[k] = v`: replaces in place if the key exists, appends otherwise. -/
def alInsert {κ β : Type} [DecidableEq κ] (l : List (κ × β)) (k : κ) (v : β) :
    List (κ × β) :=
  if (alLookup l k).isSome then alReplace l k v else l ++ [(k, v)]

/-- Python `del d[k]` (for unique keys, removing all entries with the key). -/
def alErase {κ β : Type} [DecidableEq κ] : List (κ × β) → κ → List (κ × β)
  | [], _ => []
  | p :: t, k => if p.1 = k then alErase t k else p :: alErase t k

/-- Mutation of the object stored under key `k` (Python mutates the stored
object in place). -/
def alModify {κ β : Type} [DecidableEq κ] : List (κ × β) → κ → (β → β) → List (κ × β)
  | [], _, _ => []
  | p :: t, k, f => (if p.1 = k then (k, f p.2) else p) :: alModify t k f

/-- The keys of an association list, in order. -/
def keys {κ β : Type} (l : List (κ × β)) : List κ := l.map (fun p => p.1)

/-- The three edge types of `Etype`. -/
inductive Etype
  | PARENT
  | NEXT
  | LINK
  deriving DecidableEq, Repr

/-- Python `str(etype)`: the lowercase name. -/
def etypeStr : Etype → String
  | .PARENT => "parent"
  | .NEXT => "next"
  | .LINK => "link"

/-- Python `Etype[s.upper()]`, as used by `_from_json`; `none` models the
`KeyError` on an unknown name. -/
def etypeOfName (s : String) : Option Etype :=
  if s.toUpper = "PARENT" then some Etype.PARENT
  else if s.toUpper = "NEXT" then some Etype.NEXT
  else if s.toUpper = "LINK" then some Etype.LINK
  else none

/-- The extra state of a `SpanNode` (source reference and offsets).
`endPos` is the source attribute `end` (a Lean keyword). -/
structure SpanInfo where
  srcUuid : Nat
  start : Nat
  endPos : Nat
  label : Meta
  deriving DecidableEq, Repr

/-- A `Node` object (`SpanNode` when `span` is `some`): uuid identity, external
index, stripped content, type tag, metadata, and the incoming/outgoing edge
uuid lists kept by the node.  The `_doc` back-reference is not stored; every
operation that resolves it takes the owning document explicitly. -/
structure NodeData where
  uuid : Nat
  ix : Option String
  content : String
  ntype : Option String
  meta : Option Meta
  incoming : List Nat
  outgoing : List Nat
  span : Option SpanInfo
  deriving DecidableEq, Repr

/-- An `Edge` object: uuid identity, source/target node uuids, type, metadata. -/
structure EdgeData where
  uuid : Nat
  src : Nat
  tgt : Nat
  etype : Etype
  meta : Option Meta
  deriving DecidableEq, Repr

/-- An `IntertextDocument`: prefix (source `_prefix`, named `pfx` since the
source name is unavailable here), metadata (holding `ix_counter`), the
uuid-keyed node and edge tables, the two index maps, the reconstruction-mode
flag `_init_from_existing_doc`, and the fresh-uuid supply. -/
structure Doc where
  pfx : String
  meta : Meta
  nodes : List (Nat × NodeData)
  edges : List (Nat × EdgeData)
  nodeIxMap : List (String × Nat)
  edgeIxMap : List (String × Nat)
  initFromExisting : Bool
  fresh : Nat
  deriving DecidableEq, Repr

/-- The error taxonomy of the specification, standing for the Python
exceptions: duplicate-index `AssertionError`s, `KeyError`/`ValueError`
lookup misses, and the foreign-node comparison assertion. -/
inductive Err
  | DuplicateIndex
  | NotFound
  | IncomparableNodes
  deriving DecidableEq, Repr

/-- The current value of `meta['ix_counter']`.  The documents built by the API
always carry an integer there (`__init__` inserts `-1` when absent); the
default arm is unreachable for them. -/
def ix_counter_val (m : Meta) : Int :=
  match alLookup m "ix_counter" with
  | some (MVal.int i) => i
  | _ => -1

/-- Python `self.meta['ix_counter'] += 1`. -/
def bump_ix_counter (m : Meta) : Meta :=
  alInsert m "ix_counter" (MVal.int (ix_counter_val m + 1))

/-- `Node.__init__`: strips the content, leaves the index unset, starts with
empty edge lists. -/
def mkNode (uuid : Nat) (content : String) (ntype : Option String)
    (meta : Option Meta) : NodeData :=
  { uuid := uuid, ix := none, content := pyStrip content, ntype := ntype,
    meta := meta, incoming := [], outgoing := [], span := none }

/-- `SpanNode.__init__`: records source uuid and offsets; a missing `end`
defaults to `len(str(src_node))`, the length of the source's content.
(`__str__` returns `self.content`; the sources considered are plain nodes,
whose content is the stored string.)  `super().__init__(content='')` goes
through the empty content setter, so nothing is stored as own content. -/
def mkSpanNode (uuid : Nat) (ntype : Option String) (src : NodeData)
    (start : Nat) (endPos : Option Nat) (meta : Option Meta)
    (label : Option Meta) : NodeData :=
  { uuid := uuid, ix := none, content := "", ntype := ntype, meta := meta,
    incoming := [], outgoing := [],
    span := some { srcUuid := src.uuid, start := start,
                   endPos := endPos.getD src.content.length,
                   label := label.getD [] } }

/-- `SpanNode.content` getter: `self.src_node.content[self.start:self.end + 1]`,
recomputed from the source content on every access. -/
def span_content (srcContent : String) (si : SpanInfo) : String :=
  pySlice srcContent si.start (si.endPos + 1)

/-- Assignment `node.content = v`: stores `v` on a plain `Node`; on a
`SpanNode` the property setter is `pass`, so nothing changes. -/
def content_assign (n : NodeData) (v : String) : NodeData :=
  match n.span with
  | some _ => n
  | none => { n with content := v }

/-- `Edge.ix`: `f'{src.ix}_{tgt.ix}_{etype}'`, recomputed on demand through the
owning document; `none` models the `KeyError`/`AssertionError` when an endpoint
is missing from the document or has no index yet. -/
def edge_ix (d : Doc) (e : EdgeData) : Option String :=
  match alLookup d.nodes e.src, alLookup d.nodes e.tgt with
  | some s, some t =>
    match s.ix, t.ix with
    | some si, some ti => some (si ++ "_" ++ ti ++ "_" ++ etypeStr e.etype)
    | _, _ => none
  | _, _ => none

/-- `edge_ix` with a junk default; the documents the theorems quantify over
make every resolution succeed, so the default is never reached there. -/
def edge_ix_d (d : Doc) (e : EdgeData) : String := (edge_ix d e).getD ""

/-- `node.get_edges(t, outgoing=False)`: incoming edges of the node filtered to
one type, resolving edge uuids through the document table.  Python raises
`KeyError` on an unresolvable uuid; the documents considered resolve all. -/
def incoming_etype (d : Doc) (n : NodeData) (t : Etype) : List EdgeData :=
  (n.incoming.filterMap (alLookup d.edges)).filter (fun e => decide (e.etype = t))

/-- `node.get_edges(t, incoming=False)`: outgoing edges filtered to one type. -/
def outgoing_etype (d : Doc) (n : NodeData) (t : Etype) : List EdgeData :=
  (n.outgoing.filterMap (alLookup d.edges)).filter (fun e => decide (e.etype = t))

/-- `Node.add_edge`: registers an edge uuid on the outgoing list when the node
is the source, otherwise on the incoming list when it is the target. -/
def node_add_edge_upd (e : EdgeData) (n : NodeData) : NodeData :=
  if e.src = n.uuid then { n with outgoing := n.outgoing ++ [e.uuid] }
  else if e.tgt = n.uuid then { n with incoming := n.incoming ++ [e.uuid] }
  else n

/-- `Node.remove_edge`: drops an edge uuid from the matching adjacency list.
(Python `list.remove` raises when absent; for the documents considered the
uuid is present exactly when the branch is taken.) -/
def node_remove_edge_upd (e : EdgeData) (n : NodeData) : NodeData :=
  if e.src = n.uuid then { n with outgoing := n.outgoing.erase e.uuid }
  else if e.tgt = n.uuid then { n with incoming := n.incoming.erase e.uuid }
  else n

/-- `IntertextDocument.add_edge`: resolve the derived index (raising on
unresolvable endpoints), fail with `DuplicateIndex` if it exists — before any
registration — else register on both endpoints and in both tables. -/
def add_edge (d : Doc) (e : EdgeData) : Doc × Option Err :=
  match edge_ix d e with
  | none => (d, some Err.NotFound)
  | some ix =>
    if (alLookup d.edgeIxMap ix).isSome then (d, some Err.DuplicateIndex)
    else
      let d1 := { d with nodes := alModify d.nodes e.src (node_add_edge_upd e) }
      let d2 := { d1 with nodes := alModify d1.nodes e.tgt (node_add_edge_upd e) }
      ({ d2 with edges := alInsert d2.edges e.uuid e,
                 edgeIxMap := alInsert d2.edgeIxMap ix e.uuid }, none)

/-- The `meta={'created_by': …} if node.meta and 'created_by' in node.meta else
None` expression of `add_node` (an empty dict is falsy, which coincides with
the lookup failing). -/
def created_by_meta (m : Option Meta) : Option Meta :=
  match m with
  | some mm =>
    match alLookup mm "created_by" with
    | some v => some [("created_by", v)]
    | none => none
  | none => none

/-- `IntertextDocument.add_node`: always bump `ix_counter`; assign
`{prefix}_{counter}` when the index is unset; reset the node's edge lists and
re-home it; fail with `DuplicateIndex` when the index exists (the counter stays
bumped); insert into the tables; for a `SpanNode` outside reconstruction mode,
synthesize and insert the implicit source→span `LINK` edge (drawing its uuid
from the fresh supply). -/
def add_node (d : Doc) (n : NodeData) : Doc × Option Err :=
  let m1 := bump_ix_counter d.meta
  let dA := { d with meta := m1 }
  let ix := n.ix.getD (d.pfx ++ "_" ++ toString (ix_counter_val m1))
  let n1 := { n with ix := some ix, incoming := ([] : List Nat),
                     outgoing := ([] : List Nat) }
  if (alLookup dA.nodeIxMap ix).isSome then (dA, some Err.DuplicateIndex)
  else
    let dB := { dA with nodes := alInsert dA.nodes n1.uuid n1,
                        nodeIxMap := alInsert dA.nodeIxMap ix n1.uuid }
    match dB.initFromExisting, n1.span with
    | false, some si =>
      let e : EdgeData := { uuid := dB.fresh, src := si.srcUuid, tgt := n1.uuid,
                            etype := Etype.LINK, meta := created_by_meta n1.meta }
      add_edge { dB with fresh := dB.fresh + 1 } e
    | _, _ => (dB, none)

/-- `IntertextDocument.remove_edge`: detach from both endpoints' lists, then
delete from the edge table and (by recomputed derived index) from the index
map.  The error arms Python would raise at its lookups are unreachable for
the documents the theorems consider, so this is kept total. -/
def remove_edge (d : Doc) (e : EdgeData) : Doc :=
  let d1 := { d with nodes := alModify d.nodes e.src (node_remove_edge_upd e) }
  let d2 := { d1 with nodes := alModify d1.nodes e.tgt (node_remove_edge_upd e) }
  { d2 with edges := alErase d2.edges e.uuid,
            edgeIxMap :=
              match edge_ix d e with
              | some ix => alErase d2.edgeIxMap ix
              | none => d2.edgeIxMap }

/-- Resolve a list of edge uuids through the edge table, failing (Python
`KeyError` inside the `incoming_edges`/`outgoing_edges` comprehensions) if any
is missing. -/
def resolve_all (tbl : List (Nat × EdgeData)) : List Nat → Option (List EdgeData)
  | [] => some []
  | u :: t =>
    match alLookup tbl u with
    | some e => (resolve_all tbl t).map (fun es => e :: es)
    | none => none

/-- `IntertextDocument.remove_node`: materialize `incoming_edges +
outgoing_edges` first, remove each, then delete the node from the table
(`KeyError`, i.e. `NotFound`, when absent — as on a second removal) and from
the index map.  The mutated state of the caller's node object (Python mutates
it through the shared reference while detaching edges) is returned alongside:
for every incident edge exactly one branch of `Node.remove_edge` fires, which
is replayed on the object by the second fold. -/
def remove_node (d : Doc) (n : NodeData) : Doc × NodeData × Option Err :=
  match resolve_all d.edges (n.incoming ++ n.outgoing) with
  | none => (d, n, some Err.NotFound)
  | some es =>
    let d1 := es.foldl remove_edge d
    let n1 := es.foldl (fun m e => node_remove_edge_upd e m) n
    if (alLookup d1.nodes n.uuid).isSome then
      let d2 := { d1 with nodes := alErase d1.nodes n.uuid }
      match n.ix with
      | some ix => ({ d2 with nodeIxMap := alErase d2.nodeIxMap ix }, n1, none)
      | none => (d2, n1, some Err.NotFound)
    else (d1, n1, some Err.NotFound)

/-- Sequencing of fallible mutating operations over a list, stopping at the
first error, as a raised exception stops a Python loop. -/
def seq_op {α : Type} (step : Doc → α → Doc × Option Err) :
    Doc → List α → Doc × Option Err
  | d, [] => (d, none)
  | d, a :: t =>
    match step d a with
    | (d1, none) => seq_op step d1 t
    | (d1, some err) => (d1, some err)

/-- The `meta or {}` / `'ix_counter' not in meta` part of
`IntertextDocument.__init__` (an explicitly passed empty dict behaves like an
absent one, since it is falsy). -/
def init_meta (m : Option Meta) : Meta :=
  let m0 := match m with
            | some mm => mm
            | none => []
  if (alLookup m0 "ix_counter").isSome then m0
  else alInsert m0 "ix_counter" (MVal.int (-1))

/-- `IntertextDocument.__init__`: empty tables, normal mode, then `add_node`
for each node and `add_edge` for each edge.  `fresh` seeds the uuid supply. -/
def init_doc (nodes : List NodeData) (edges : List EdgeData) (pfx : String)
    (meta : Option Meta) (fresh : Nat) : Doc × Option Err :=
  let d0 : Doc := { pfx := pfx, meta := init_meta meta, nodes := [], edges := [],
                    nodeIxMap := [], edgeIxMap := [], initFromExisting := false,
                    fresh := fresh }
  match seq_op add_node d0 nodes with
  | (d1, none) => seq_op add_edge d1 edges
  | r => r

/-- The search condition of `IntertextDocument.root`: no incoming `NEXT` edge
and at least one outgoing `NEXT` edge. -/
def root_pred (d : Doc) (p : Nat × NodeData) : Bool :=
  (incoming_etype d p.2 Etype.NEXT).isEmpty
    && !(outgoing_etype d p.2 Etype.NEXT).isEmpty

/-- `IntertextDocument.root`: with exactly one node, that node; otherwise the
first node (in insertion order) with no incoming `NEXT` edge and at least one
outgoing `NEXT` edge, or `none` (Python falls through returning `None`). -/
def root (d : Doc) : Option Nat :=
  match d.nodes with
  | [p] => some p.1
  | _ => (d.nodes.find? (root_pred d)).map (fun p => p.1)

/-- Whether a node currently qualifies as the root-candidate of the search
loop in `root` (no incoming `NEXT`, at least one outgoing `NEXT`). -/
def is_root_candidate (d : Doc) (u : Nat) : Bool :=
  match alLookup d.nodes u with
  | some n => root_pred d (u, n)
  | none => false

/-- The inner edge loop of `_unroll_graph`: for each outgoing `NEXT` edge whose
derived index is not yet among the breadcrumbs, record the index and enqueue
the target. -/
def unroll_step (d : Doc) (acc : List String × List Nat) (es : List EdgeData) :
    List String × List Nat :=
  es.foldl (fun acc e =>
    let ix := edge_ix_d d e
    if ix ∈ acc.1 then acc else (acc.1 ++ [ix], acc.2 ++ [e.tgt])) acc

/-- The outgoing `NEXT` edges of the node with the given uuid, i.e.
`current_node.get_edges(Etype.NEXT, incoming=False)` (the empty arm models the
`KeyError` Python would raise; unreachable for the documents considered). -/
def node_out_next (d : Doc) (u : Nat) : List EdgeData :=
  match alLookup d.nodes u with
  | some n => outgoing_etype d n Etype.NEXT
  | none => []

/-- `IntertextDocument._unroll_graph` as a fuelled loop: pop the queue head,
run the edge loop, append the popped node to the result.  The fuel argument
makes the recursion structural; `none` marks fuel exhaustion, which the
termination theorem rules out for sufficient fuel.  Returns the visit order
together with the final breadcrumbs. -/
def unroll_aux (d : Doc) : Nat → List Nat → List String → Option (List Nat × List String)
  | _, [], bc => some ([], bc)
  | 0, _ :: _, _ => none
  | fuel + 1, u :: rest, bc =>
    let acc := unroll_step d (bc, rest) (node_out_next d u)
    match unroll_aux d fuel acc.2 acc.1 with
    | some (res, bcF) => some (u :: res, bcF)
    | none => none

/-- `IntertextDocument.unroll_graph`: `_unroll_graph(self.root)`.  (Python
crashes with `AttributeError` when `root` returns `None`; modelled as `none`.)
The fuel `|edges| + 1` is provably sufficient. -/
def unroll_graph (d : Doc) : Option (List Nat × List String) :=
  (root d).bind (fun r => unroll_aux d (d.edges.length + 1) [r] [])

/-- The incoming edges of one type of the node with the given uuid, i.e.
`node.get_edges(t, outgoing=False)` (the empty arm models the `KeyError`
Python would raise; unreachable for the documents considered). -/
def node_in_edges (d : Doc) (t : Etype) (u : Nat) : List EdgeData :=
  match alLookup d.nodes u with
  | some n => incoming_etype d n t
  | none => []

/-- `IntertextDocument.breadcrumbs`: the node, then recursively the source of
its first incoming edge of the given type.  Fuelled: `none` models the
divergence Python would exhibit on a backward cycle. -/
def breadcrumbs (d : Doc) (t : Etype) : Nat → Nat → Option (List Nat)
  | 0, _ => none
  | fuel + 1, u =>
    match (node_in_edges d t u).head? with
    | none => some [u]
    | some e => (breadcrumbs d t fuel e.src).map (fun l => u :: l)

/-- The outcome of `Node.__lt__`: a boolean, or the raised contract violation. -/
inductive LtRes
  | val (b : Bool)
  | raised (e : Err)
  deriving DecidableEq, Repr

/-- The position of a node in `self._doc.nodes` (`list.index`; both nodes the
theorems compare are members, where `findIdx` agrees with Python). -/
def key_index (d : Doc) (u : Nat) : Nat :=
  d.nodes.findIdx (fun p => decide (p.1 = u))

/-- `Node.__lt__`: assert the other node belongs to the same document
(`IncomparableNodes` otherwise); pick the walk direction by registration
order; then scan the backward `NEXT` breadcrumbs of the later node for the
earlier one.  `none` models divergence of the underlying breadcrumb walk. -/
def node_lt (d : Doc) (fuel : Nat) (a b : Nat) : Option LtRes :=
  if (alLookup d.nodes b).isSome then
    if key_index d a < key_index d b then
      (breadcrumbs d Etype.NEXT fuel b).map (fun bcl => LtRes.val (decide (a ∈ bcl)))
    else
      (breadcrumbs d Etype.NEXT fuel a).map (fun bcl => LtRes.val (decide (b ∉ bcl)))
  else some (LtRes.raised Err.IncomparableNodes)

/-- A serialized plain node: `{'ix', 'content', 'ntype', 'meta'}`. -/
structure SNode where
  ix : String
  content : String
  ntype : Option String
  meta : Option Meta
  deriving DecidableEq, Repr

/-- A serialized span node: `{'ix', 'ntype', 'meta', 'src_ix', 'start', 'end',
'label'}` — no content is persisted. -/
structure SSpan where
  ix : String
  ntype : Option String
  meta : Option Meta
  srcIx : String
  start : Nat
  endPos : Nat
  label : Meta
  deriving DecidableEq, Repr

/-- A serialized edge: `{'src_ix', 'tgt_ix', 'etype', 'meta'}` with the type as
its lowercase name. -/
structure SEdge where
  srcIx : String
  tgtIx : String
  etype : String
  meta : Option Meta
  deriving DecidableEq, Repr

/-- The top-level serialized record `{'nodes', 'span_nodes', 'edges', 'prefix',
'meta'}`. -/
structure SerialDoc where
  nodes : List SNode
  spanNodes : List SSpan
  edges : List SEdge
  pfx : String
  meta : Meta
  deriving DecidableEq, Repr

/-- A node's persisted index (always set for nodes that went through
`add_node`; Python would emit `null` otherwise). -/
def node_ix_d (n : NodeData) : String := n.ix.getD ""

/-- The persisted `src_ix` of a span: `o.src_node.ix`, resolved here through
the owning document's table (the same object Python reaches directly). -/
def src_ix_of (d : Doc) (si : SpanInfo) : String :=
  ((alLookup d.nodes si.srcUuid).bind (fun n => n.ix)).getD ""

/-- `IntertextDocument.to_json` / `IntertextEncoder`: split the node list into
plain and span nodes (preserving order), encode each, encode every edge by
endpoint indices and lowercase type name, and attach prefix and metadata. -/
def to_json (d : Doc) : SerialDoc :=
  { nodes := (d.nodes.filter (fun p => p.2.span.isNone)).map (fun p =>
      { ix := node_ix_d p.2, content := p.2.content, ntype := p.2.ntype,
        meta := p.2.meta }),
    spanNodes := (d.nodes.filter (fun p => p.2.span.isSome)).map (fun p =>
      match p.2.span with
      | some si =>
        { ix := node_ix_d p.2, ntype := p.2.ntype, meta := p.2.meta,
          srcIx := src_ix_of d si, start := si.start, endPos := si.endPos,
          label := si.label }
      | none =>
        { ix := node_ix_d p.2, ntype := p.2.ntype, meta := p.2.meta,
          srcIx := "", start := 0, endPos := 0, label := [] }),
    edges := d.edges.map (fun p =>
      { srcIx := ((alLookup d.nodes p.2.src).bind (fun n => n.ix)).getD "",
        tgtIx := ((alLookup d.nodes p.2.tgt).bind (fun n => n.ix)).getD "",
        etype := etypeStr p.2.etype, meta := p.2.meta }),
    pfx := d.pfx, meta := d.meta }

/-- `IntertextDocument._from_json`.  Crucial aliasing detail: `__init__` does
`self.meta = meta or {}`, so for the non-empty dict `data['meta']` the
document's `meta` IS `data['meta']`; every `add_node` increments
`ix_counter` in that shared dict, and the later "reset"
`itg.meta['ix_counter'] = data['meta']['ix_counter']` reads the
already-incremented value back — a no-op.  That read is therefore modelled as
a read of the document's own current metadata.  (With an empty persisted meta
there is no aliasing, but then no reset happens either, so reading the
document's own metadata models both branches exactly.) -/
def from_json (data : SerialDoc) : Doc × Option Err :=
  match init_doc [] [] data.pfx (some data.meta) 0 with
  | (itg0, some err) => (itg0, some err)
  | (itg0, none) =>
    let itg1 := { itg0 with initFromExisting := true }
    match seq_op (fun d sn =>
        let node := { mkNode d.fresh sn.content sn.ntype sn.meta with
                      ix := some sn.ix }
        add_node { d with fresh := d.fresh + 1 } node) itg1 data.nodes with
    | (itg2, some err) => (itg2, some err)
    | (itg2, none) =>
      match seq_op (fun d ss =>
          match alLookup d.nodeIxMap ss.srcIx with
          | none => (d, some Err.NotFound)
          | some srcU =>
            match alLookup d.nodes srcU with
            | none => (d, some Err.NotFound)
            | some srcN =>
              let base := mkSpanNode d.fresh ss.ntype srcN ss.start
                (some ss.endPos) ss.meta (some ss.label)
              let node := { base with ix := some ss.ix }
              add_node { d with fresh := d.fresh + 1 } node) itg2 data.spanNodes with
      | (itg3, some err) => (itg3, some err)
      | (itg3, none) =>
        let resetMeta := alInsert itg3.meta "ix_counter"
          ((alLookup itg3.meta "ix_counter").getD MVal.null)
        let itg4 :=
          if (alLookup itg3.meta "ix_counter").isSome then
            { itg3 with meta := resetMeta }
          else itg3
        match seq_op (fun d se =>
            match alLookup d.nodeIxMap se.srcIx, alLookup d.nodeIxMap se.tgtIx,
                  etypeOfName se.etype with
            | some su, some tu, some et =>
              add_edge { d with fresh := d.fresh + 1 }
                { uuid := d.fresh, src := su, tgt := tu, etype := et,
                  meta := se.meta }
            | _, _, _ => (d, some Err.NotFound)) itg4 data.edges with
        | (itg5, some err) => (itg5, some err)
        | (itg5, none) => ({ itg5 with initFromExisting := false }, none)

/-- Well-formedness of a document state, as established by the construction
API: unique uuid keys, unique derived edge indices, table keys matching the
stored uuids, indices assigned, adjacency lists exactly mirroring the edge
table (in its order), and edges between distinct, present endpoints. -/
def WFDoc (d : Doc) : Prop :=
  (keys d.nodes).Nodup ∧
  (keys d.edges).Nodup ∧
  (d.edges.map (fun p => edge_ix_d d p.2)).Nodup ∧
  (∀ p ∈ d.nodes, p.2.uuid = p.1 ∧ p.2.ix.isSome = true ∧
    p.2.incoming = keys (d.edges.filter (fun q => decide (q.2.tgt = p.1))) ∧
    p.2.outgoing = keys (d.edges.filter (fun q => decide (q.2.src = p.1)))) ∧
  (∀ q ∈ d.edges, q.2.uuid = q.1 ∧ ¬ q.2.src = q.2.tgt ∧
    (alLookup d.nodes q.2.src).isSome = true ∧
    (alLookup d.nodes q.2.tgt).isSome = true)

instance (d : Doc) : Decidable (WFDoc d) := by
  unfold WFDoc
  exact inferInstance

/-! Association-list lemmas used throughout the development. -/

theorem alLookup_eq_none_iff {κ β : Type} [DecidableEq κ] (l : List (κ × β)) (k : κ) :
    alLookup l k = none ↔ k ∉ keys l := by
  induction l with
  | nil => simp [alLookup, keys]
  | cons p t ih =>
    by_cases h : p.1 = k
    · simp [alLookup, h, keys]
    · simp [alLookup, h, keys, ih, Ne.symm h]

theorem alLookup_isSome_of_mem_keys {κ β : Type} [DecidableEq κ]
    {l : List (κ × β)} {k : κ} (h : k ∈ keys l) : (alLookup l k).isSome = true := by
  cases hl : alLookup l k with
  | none => exact absurd ((alLookup_eq_none_iff l k).mp hl) (by simp [h])
  | some v => rfl

theorem alLookup_mem {κ β : Type} [DecidableEq κ] {l : List (κ × β)} {k : κ} {v : β}
    (h : alLookup l k = some v) : (k, v) ∈ l := by
  induction l with
  | nil => simp [alLookup] at h
  | cons p t ih =>
    by_cases hp : p.1 = k
    · simp only [alLookup, if_pos hp] at h
      cases h
      cases p
      simp_all
    · simp only [alLookup, if_neg hp] at h
      exact List.mem_cons_of_mem _ (ih h)

theorem alLookup_of_mem_nodup {κ β : Type} [DecidableEq κ] {l : List (κ × β)}
    {k : κ} {v : β} (hn : (keys l).Nodup) (h : (k, v) ∈ l) :
    alLookup l k = some v := by
  induction l with
  | nil => simp at h
  | cons p t ih =>
    simp only [keys, List.map_cons, List.nodup_cons] at hn
    rcases List.mem_cons.mp h with h1 | h1
    · subst h1
      simp [alLookup]
    · have hpk : p.1 ≠ k := by
        intro he
        exact hn.1 (he ▸ (List.mem_map.mpr ⟨(k, v), h1, rfl⟩))
      simp only [alLookup, if_neg hpk]
      exact ih hn.2 h1

theorem alLookup_append_of_none {κ β : Type} [DecidableEq κ]
    {l1 : List (κ × β)} (l2 : List (κ × β)) {k : κ} (h : alLookup l1 k = none) :
    alLookup (l1 ++ l2) k = alLookup l2 k := by
  induction l1 with
  | nil => simp
  | cons p t ih =>
    by_cases hp : p.1 = k
    · simp [alLookup, hp] at h
    · simp only [alLookup, if_neg hp] at h
      simpa only [List.cons_append, alLookup, if_neg hp] using ih h

theorem alLookup_alReplace_self {κ β : Type} [DecidableEq κ]
    (l : List (κ × β)) (k : κ) (v : β) (h : (alLookup l k).isSome = true) :
    alLookup (alReplace l k v) k = some v := by
  induction l with
  | nil => simp [alLookup] at h
  | cons p t ih =>
    by_cases hp : p.1 = k
    · simp [alReplace, alLookup, hp]
    · have h' : (alLookup t k).isSome = true := by
        simpa only [alLookup, if_neg hp] using h
      simp only [alReplace, if_neg hp, alLookup]
      exact ih h'

theorem alLookup_alReplace_ne {κ β : Type} [DecidableEq κ]
    (l : List (κ × β)) (k k' : κ) (v : β) (h : k' ≠ k) :
    alLookup (alReplace l k v) k' = alLookup l k' := by
  induction l with
  | nil => rfl
  | cons p t ih =>
    by_cases hp : p.1 = k
    · simp only [alReplace, if_pos hp, alLookup]
      rw [if_neg (Ne.symm h), if_neg (fun he : p.1 = k' => h (he ▸ hp ▸ rfl)), ih]
    · simp only [alReplace, if_neg hp, alLookup]
      by_cases hp' : p.1 = k'
      · simp [hp']
      · rw [if_neg hp', if_neg hp', ih]

theorem alLookup_append_single_ne {κ β : Type} [DecidableEq κ]
    (l : List (κ × β)) (k k' : κ) (v : β) (h : k' ≠ k) :
    alLookup (l ++ [(k, v)]) k' = alLookup l k' := by
  induction l with
  | nil => simp [alLookup, Ne.symm h]
  | cons p t ih =>
    by_cases hp : p.1 = k'
    · simp [alLookup, hp]
    · simp only [List.cons_append, alLookup, if_neg hp]
      exact ih

theorem alLookup_alInsert_self {κ β : Type} [DecidableEq κ] (l : List (κ × β))
    (k : κ) (v : β) : alLookup (alInsert l k v) k = some v := by
  unfold alInsert
  by_cases h : (alLookup l k).isSome
  · rw [if_pos h]
    exact alLookup_alReplace_self l k v h
  · rw [if_neg h]
    have hn : alLookup l k = none := by
      cases hl : alLookup l k with
      | none => rfl
      | some v' => rw [hl] at h; simp at h
    rw [alLookup_append_of_none _ hn]
    simp [alLookup]

theorem alLookup_alInsert_ne {κ β : Type} [DecidableEq κ] (l : List (κ × β))
    (k k' : κ) (v : β) (h : k' ≠ k) :
    alLookup (alInsert l k v) k' = alLookup l k' := by
  unfold alInsert
  by_cases hs : (alLookup l k).isSome
  · rw [if_pos hs]
    exact alLookup_alReplace_ne l k k' v h
  · rw [if_neg hs]
    exact alLookup_append_single_ne l k k' v h

theorem alLookup_alModify {κ β : Type} [DecidableEq κ] (l : List (κ × β))
    (k : κ) (f : β → β) (k' : κ) :
    alLookup (alModify l k f) k' =
      (alLookup l k').map (fun v => if k' = k then f v else v) := by
  induction l with
  | nil => rfl
  | cons p t ih =>
    by_cases hp : p.1 = k
    · by_cases hk : k' = k
      · subst hk
        simp [alModify, alLookup, hp]
      · simp only [alModify, if_pos hp, alLookup]
        rw [if_neg (Ne.symm hk), if_neg (fun he : p.1 = k' => hk (he ▸ hp ▸ rfl)), ih]
    · by_cases hp' : p.1 = k'
      · subst hp'
        simp [alModify, alLookup, hp]
      · simp only [alModify, if_neg hp, alLookup]
        rw [if_neg hp', if_neg hp', ih]

theorem alLookup_alErase {κ β : Type} [DecidableEq κ] (l : List (κ × β))
    (k k' : κ) :
    alLookup (alErase l k) k' = if k' = k then none else alLookup l k' := by
  induction l with
  | nil => simp [alErase, alLookup]
  | cons p t ih =>
    by_cases hp : p.1 = k
    · by_cases hk : k' = k
      · simp only [alErase, if_pos hp, ih, if_pos hk]
      · simp only [alErase, if_pos hp, ih, if_neg hk, alLookup]
        rw [if_neg (fun he : p.1 = k' => hk (he ▸ hp ▸ rfl))]
    · by_cases hp' : p.1 = k'
      · have hk : ¬ k' = k := fun he => hp (hp' ▸ he ▸ rfl)
        simp only [alErase, if_neg hp, alLookup, if_pos hp', if_neg hk]
      · simp only [alErase, if_neg hp, alLookup, if_neg hp', ih]

theorem keys_alModify {κ β : Type} [DecidableEq κ] (l : List (κ × β)) (k : κ)
    (f : β → β) : keys (alModify l k f) = keys l := by
  induction l with
  | nil => rfl
  | cons p t ih =>
    by_cases hp : p.1 = k
    · simp only [alModify, if_pos hp, keys, List.map_cons]
      rw [hp]
      exact congrArg _ (by simpa [keys] using ih)
    · simp only [alModify, if_neg hp, keys, List.map_cons]
      exact congrArg _ (by simpa [keys] using ih)

theorem keys_alErase {κ β : Type} [DecidableEq κ] (l : List (κ × β)) (k : κ) :
    keys (alErase l k) = (keys l).filter (fun x => !decide (x = k)) := by
  induction l with
  | nil => rfl
  | cons p t ih =>
    simp only [keys] at ih ⊢
    by_cases hp : p.1 = k
    · simp [alErase, hp, List.filter_cons, ih]
    · simp [alErase, hp, List.filter_cons, ih]

theorem keys_alInsert_fresh {κ β : Type} [DecidableEq κ] {l : List (κ × β)}
    {k : κ} (v : β) (h : alLookup l k = none) :
    keys (alInsert l k v) = keys l ++ [k] := by
  unfold alInsert
  rw [if_neg (by simp [h])]
  simp [keys]

theorem alInsert_fresh_eq_append {κ β : Type} [DecidableEq κ] {l : List (κ × β)}
    {k : κ} (v : β) (h : (alLookup l k).isSome = false) :
    alInsert l k v = l ++ [(k, v)] := by
  unfold alInsert
  rw [if_neg (by simp [h])]

theorem ix_counter_val_bump (m : Meta) :
    ix_counter_val (bump_ix_counter m) = ix_counter_val m + 1 := by
  unfold ix_counter_val bump_ix_counter
  rw [alLookup_alInsert_self]
  rfl

/-- `String.mk` is inverse to `String.toList`. -/
theorem string_mk_toList (s : String) : String.mk s.toList = s := by
  cases s
  rfl

/-! Concrete documents used as witnesses and counterexamples.  They are all
built through the construction API (`init_doc`, i.e. `IntertextDocument.__init__`
driving `add_node`/`add_edge`), so they are reachable program states. -/

/-- Shorthand for an edge value as built by `Edge.__init__` (no metadata). -/
def mkE (u s t : Nat) (ty : Etype) : EdgeData :=
  { uuid := u, src := s, tgt := t, etype := ty, meta := none }

/-- A document with a single plain node, used for the round-trip claim. -/
def c1Doc : Doc :=
  (init_doc [mkNode 50 "A" (some "p") none] [] "p" none 60).1

/-- The specification scenario: nodes `A(title), B(p), C(p)` with edges
`A-PARENT->B`, `A-PARENT->C`, `B-NEXT->C`. -/
def scenarioDoc : Doc :=
  (init_doc [mkNode 1 "A" (some "title") none, mkNode 2 "B" (some "p") none,
             mkNode 3 "C" (some "p") none]
            [mkE 21 1 2 Etype.PARENT, mkE 22 1 3 Etype.PARENT,
             mkE 23 2 3 Etype.NEXT] "p" none 100).1

/-- Two disjoint `NEXT` chains `A->B` and `C->D`: two root candidates, and
pairs of nodes with no connecting `NEXT` path. -/
def twoChainDoc : Doc :=
  (init_doc [mkNode 1 "A" none none, mkNode 2 "B" none none,
             mkNode 3 "C" none none, mkNode 4 "D" none none]
            [mkE 11 1 2 Etype.NEXT, mkE 12 3 4 Etype.NEXT] "p" none 100).1

/-- A `NEXT` cycle `A->B->A`. -/
def cycleDoc : Doc :=
  (init_doc [mkNode 1 "A" none none, mkNode 2 "B" none none]
            [mkE 11 1 2 Etype.NEXT, mkE 12 2 1 Etype.NEXT] "p" none 100).1

/-- Re-converging `NEXT` paths `A->B->D` and `A->C->D`. -/
def convDoc : Doc :=
  (init_doc [mkNode 1 "A" none none, mkNode 2 "B" none none,
             mkNode 3 "C" none none, mkNode 4 "D" none none]
            [mkE 21 1 2 Etype.NEXT, mkE 22 1 3 Etype.NEXT,
             mkE 23 2 4 Etype.NEXT, mkE 24 3 4 Etype.NEXT] "p" none 100).1

/-- A three-node `NEXT` chain `A->B->C`. -/
def chainDoc : Doc :=
  (init_doc [mkNode 1 "A" none none, mkNode 2 "B" none none,
             mkNode 3 "C" none none]
            [mkE 11 1 2 Etype.NEXT, mkE 12 2 3 Etype.NEXT] "p" none 100).1

/-- C4: reading a span's content computes `source.content[start : end+1]` with
inclusive end (so offsets 0..4 over "Hello world" give "Hello"), recomputed
from the source on every read (mutating the source content changes the next
read), and direct assignment to a span's content never changes anything. -/
theorem c4_span_content :
    (∀ (src : NodeData) (si : SpanInfo),
      span_content src.content si = pySlice src.content si.start (si.endPos + 1)) ∧
    span_content "Hello world"
        { srcUuid := 0, start := 0, endPos := 4, label := [] } = "Hello" ∧
    (∀ (src : NodeData) (v : String) (si : SpanInfo), src.span = none →
      span_content (content_assign src v).content si =
        pySlice v si.start (si.endPos + 1)) ∧
    (∀ (sn : NodeData) (v : String), sn.span.isSome = true →
      content_assign sn v = sn) := by
  refine ⟨fun src si => rfl, by decide, ?_, ?_⟩
  · intro src v si h
    simp [content_assign, h, span_content]
  · intro sn v h
    cases hs : sn.span with
    | none => rw [hs] at h; simp at h
    | some s => simp [content_assign, hs]

theorem c4_span_content_witness :
    span_content (content_assign (mkNode 9 "Hello world" none none) "Goodbye").content
        { srcUuid := 9, start := 0, endPos := 4, label := [] } =
      pySlice "Goodbye" 0 5 ∧
    content_assign (mkSpanNode 10 none (mkNode 9 "Hello world" none none) 0
        (some 4) none none) "XYZ" =
      mkSpanNode 10 none (mkNode 9 "Hello world" none none) 0 (some 4) none none :=
  ⟨c4_span_content.2.2.1 (mkNode 9 "Hello world" none none) "Goodbye"
      { srcUuid := 9, start := 0, endPos := 4, label := [] } rfl,
   c4_span_content.2.2.2 _ "XYZ" rfl⟩

/-- C10: constructing a `SpanNode` with the end offset omitted records
`end = len(source content)`, so the span reads as the whole remainder of the
source content from `start` on, and as the whole source content when `start`
is also the default `0`. -/
theorem c10_span_default_end (uuid : Nat) (nt : Option String) (src : NodeData)
    (start : Nat) (m l : Option Meta) (_hplain : src.span = none) :
    (mkSpanNode uuid nt src start none m l).span =
      some { srcUuid := src.uuid, start := start, endPos := src.content.length,
             label := l.getD [] } ∧
    span_content src.content
        { srcUuid := src.uuid, start := start, endPos := src.content.length,
          label := l.getD [] } =
      String.mk (src.content.toList.drop start) ∧
    (start = 0 →
      span_content src.content
          { srcUuid := src.uuid, start := start,
            endPos := src.content.length, label := l.getD [] } = src.content) := by
  refine ⟨rfl, ?_, ?_⟩
  · unfold span_content pySlice
    congr 1
    apply List.take_of_length_le
    rw [List.length_drop]
    have h1 : src.content.toList.length = src.content.length := rfl
    rw [h1]
    exact Nat.sub_le_sub_right (Nat.le_succ _) start
  · intro h0
    subst h0
    unfold span_content pySlice
    rw [List.drop_zero]
    have : src.content.length + 1 - 0 = src.content.length + 1 := rfl
    rw [this]
    rw [List.take_of_length_le]
    · exact string_mk_toList src.content
    · have h1 : src.content.toList.length = src.content.length := rfl
      rw [h1]
      exact Nat.le_succ _

theorem c10_span_default_end_witness :
    (mkSpanNode 10 none (mkNode 9 "Hello world" none none) 6 none none none).span =
      some { srcUuid := 9, start := 6, endPos := 11, label := [] } ∧
    span_content "Hello world" { srcUuid := 9, start := 6, endPos := 11, label := [] } =
      String.mk ("Hello world".toList.drop 6) :=
  ⟨(c10_span_default_end 10 none (mkNode 9 "Hello world" none none) 6 none none rfl).1,
   (c10_span_default_end 10 none (mkNode 9 "Hello world" none none) 6 none none rfl).2.1⟩

/-- C9: adding an edge whose derived index already exists fails with
`DuplicateIndex` and leaves the document — adjacency lists, edge table and
edge-index map — completely unchanged: the duplicate check precedes every
registration step. -/
theorem c9_add_edge_atomic (d : Doc) (e : EdgeData) (ix : String)
    (hix : edge_ix d e = some ix)
    (hdup : (alLookup d.edgeIxMap ix).isSome = true) :
    add_edge d e = (d, some Err.DuplicateIndex) := by
  unfold add_edge
  rw [hix]
  simp [hdup]

theorem c9_add_edge_atomic_witness :
    add_edge twoChainDoc (mkE 99 1 2 Etype.NEXT) =
      (twoChainDoc, some Err.DuplicateIndex) :=
  c9_add_edge_atomic twoChainDoc (mkE 99 1 2 Etype.NEXT) "p_0_p_1_next"
    (by decide) (by decide)

/-- C6: adding a node whose pre-set index is already taken fails with
`DuplicateIndex`, the tables are untouched, but `ix_counter` — bumped before
the check — has still advanced by one. -/
theorem c6_duplicate_index_counter (d : Doc) (n : NodeData) (ix0 : String)
    (hix : n.ix = some ix0)
    (hdup : (alLookup d.nodeIxMap ix0).isSome = true) :
    add_node d n = ({ d with meta := bump_ix_counter d.meta },
      some Err.DuplicateIndex) ∧
    ix_counter_val (add_node d n).1.meta = ix_counter_val d.meta + 1 := by
  have h1 : add_node d n = ({ d with meta := bump_ix_counter d.meta },
      some Err.DuplicateIndex) := by
    unfold add_node
    simp [hix, hdup]
  refine ⟨h1, ?_⟩
  rw [h1]
  exact ix_counter_val_bump d.meta

theorem c6_duplicate_index_counter_witness :
    add_node twoChainDoc { mkNode 77 "X" none none with ix := some "p_0" } =
      ({ twoChainDoc with meta := bump_ix_counter twoChainDoc.meta },
        some Err.DuplicateIndex) ∧
    ix_counter_val (add_node twoChainDoc
        { mkNode 77 "X" none none with ix := some "p_0" }).1.meta =
      ix_counter_val twoChainDoc.meta + 1 :=
  c6_duplicate_index_counter twoChainDoc
    { mkNode 77 "X" none none with ix := some "p_0" } "p_0" rfl (by decide)

/-- C1 (code bug): serializing and deserializing a document preserves the node
set, the edge set and the indices, but NOT `ix_counter`: because `itg.meta`
aliases `data['meta']` in `_from_json`, the intended reset (itgraph.py lines
264-267, "Reset the ix counter which has been increased by add_node()") reads
the counter already incremented by the `add_node` calls, so the round-tripped
counter is the original plus the number of nodes.  Here: 0 becomes 1. -/
theorem c1_roundtrip_counter_bug :
    (from_json (to_json c1Doc)).2 = none ∧
    ix_counter_val c1Doc.meta = 0 ∧
    ix_counter_val (from_json (to_json c1Doc)).1.meta =
      ix_counter_val c1Doc.meta + 1 ∧
    (to_json (from_json (to_json c1Doc)).1).nodes = (to_json c1Doc).nodes ∧
    (to_json (from_json (to_json c1Doc)).1).spanNodes = (to_json c1Doc).spanNodes ∧
    (to_json (from_json (to_json c1Doc)).1).edges = (to_json c1Doc).edges ∧
    (from_json (to_json c1Doc)).1.pfx = c1Doc.pfx := by decide

/-- Helper: `find?` over a list returns the designated element when it
satisfies the predicate and is the only one that does. -/
theorem find?_eq_some_of_unique {α : Type} (p : α → Bool) (l : List α) (x : α)
    (hx : x ∈ l) (hpx : p x = true) (hu : ∀ y ∈ l, p y = true → y = x) :
    l.find? p = some x := by
  induction l with
  | nil => simp at hx
  | cons a t ih =>
    by_cases hpa : p a = true
    · have hax : a = x := hu a (List.mem_cons_self a t) hpa
      rw [List.find?_cons_of_pos _ hpa, hax]
    · rw [List.find?_cons_of_neg _ (by simpa using hpa)]
      rcases List.mem_cons.mp hx with h | h
      · subst h
        exact absurd hpx hpa
      · exact ih h (fun y hy hpy => hu y (List.mem_cons_of_mem _ hy) hpy)

/-- Helper: in a table with unique keys, entries are determined by their key. -/
theorem entries_eq_of_nodup_keys {κ β : Type} [DecidableEq κ]
    {l : List (κ × β)} (hn : (keys l).Nodup) {p q : κ × β}
    (hp : p ∈ l) (hq : q ∈ l) (hk : p.1 = q.1) : p = q := by
  have h1 : alLookup l p.1 = some p.2 := alLookup_of_mem_nodup hn hp
  have h2 : alLookup l q.1 = some q.2 := alLookup_of_mem_nodup hn hq
  rw [← hk] at h2
  rw [h1] at h2
  obtain ⟨a, b⟩ := p
  obtain ⟨c, e⟩ := q
  simp at h2 hk
  simp [hk, h2]

/-- Helper: `is_root_candidate` agrees with the search condition of `root`
on the entries of a table with unique keys. -/
theorem is_root_candidate_spec (d : Doc) (hn : (keys d.nodes).Nodup)
    {p : Nat × NodeData} (hp : p ∈ d.nodes) :
    is_root_candidate d p.1 = root_pred d p := by
  unfold is_root_candidate
  have h : alLookup d.nodes p.1 = some p.2 := alLookup_of_mem_nodup hn hp
  rw [h]

/-- Helper: `root` on a document with at least two nodes is the candidate
search. -/
theorem root_of_two (d : Doc) (a b : Nat × NodeData) (t : List (Nat × NodeData))
    (hd : d.nodes = a :: b :: t) :
    root d = (d.nodes.find? (root_pred d)).map (fun p => p.1) := by
  unfold root
  rw [hd]

/-- C3 (counterexample): with two disjoint `NEXT` chains there are two root
candidates, yet `root` does not fail — it returns the first candidate. -/
theorem c3_multiple_candidates_no_failure :
    is_root_candidate twoChainDoc 1 = true ∧
    is_root_candidate twoChainDoc 3 = true ∧
    (1 : Nat) ≠ 3 ∧
    root twoChainDoc = some 1 := by decide

/-- C3 (amended): `root` returns the sole node of a one-node document; on a
multi-node document it returns the unique candidate when exactly one node has
no incoming `NEXT` and some outgoing `NEXT` edge, returns the first candidate
in insertion order when several exist (rather than failing), and returns
nothing when none exists; in the scenario `[A,B,C]` with `A-PARENT->B`,
`A-PARENT->C`, `B-NEXT->C`, the root is `B` and `unroll_graph` returns
`[B, C]`. -/
theorem c3_root_characterization :
    (∀ (d : Doc) (p : Nat × NodeData), d.nodes = [p] → root d = some p.1) ∧
    (∀ d : Doc, (keys d.nodes).Nodup → 2 ≤ d.nodes.length →
      (∀ w ∈ keys d.nodes, is_root_candidate d w = false) → root d = none) ∧
    (∀ (d : Doc) (u : Nat), (keys d.nodes).Nodup → 2 ≤ d.nodes.length →
      u ∈ keys d.nodes → is_root_candidate d u = true →
      (∀ w ∈ keys d.nodes, w ≠ u → is_root_candidate d w = false) →
      root d = some u) ∧
    root scenarioDoc = some 2 ∧
    (unroll_graph scenarioDoc).map (fun r => r.1) = some [2, 3] := by
  refine ⟨?_, ?_, ?_, by decide, by decide⟩
  · intro d p h
    unfold root
    rw [h]
  · intro d hn hlen hall
    rcases hd : d.nodes with _ | ⟨a, t1⟩
    · rw [hd] at hlen
      simp at hlen
    · rcases ht : t1 with _ | ⟨b, t2⟩
      · rw [hd, ht] at hlen
        simp at hlen
      · rw [ht] at hd
        rw [root_of_two d a b t2 hd]
        rw [List.find?_eq_none.mpr ?_]
        · rfl
        · intro x hx
          have hs := is_root_candidate_spec d hn hx
          have hf := hall x.1 (List.mem_map.mpr ⟨x, hx, rfl⟩)
          rw [hf] at hs
          simp [← hs]
  · intro d u hn hlen hu hcand hothers
    obtain ⟨p0, hp0mem, hp0key⟩ := List.mem_map.mp hu
    rcases hd : d.nodes with _ | ⟨a, t1⟩
    · rw [hd] at hlen
      simp at hlen
    · rcases ht : t1 with _ | ⟨b, t2⟩
      · rw [hd, ht] at hlen
        simp at hlen
      · rw [ht] at hd
        rw [root_of_two d a b t2 hd]
        have hpx : root_pred d p0 = true := by
          rw [← is_root_candidate_spec d hn hp0mem, hp0key]
          exact hcand
        have huniq : ∀ y ∈ d.nodes, root_pred d y = true → y = p0 := by
          intro y hy hpy
          by_cases hyu : y.1 = u
          · exact entries_eq_of_nodup_keys hn hy hp0mem (hyu.trans hp0key.symm)
          · have hf := hothers y.1 (List.mem_map.mpr ⟨y, hy, rfl⟩) hyu
            rw [is_root_candidate_spec d hn hy, hpy] at hf
            exact absurd hf (by simp)
        rw [find?_eq_some_of_unique (root_pred d) d.nodes p0 hp0mem hpx huniq]
        simp [hp0key]

theorem c3_root_characterization_witness : root scenarioDoc = some 2 :=
  c3_root_characterization.2.2.1 scenarioDoc 2 (by decide) (by decide)
    (by decide) (by decide) (by decide)

/-- C8 (counterexample): two nodes of the same document that are not connected
by any `NEXT` path (here nodes `1` and `3`, roots of two disjoint chains, with
breadcrumbs `[1]` and `[3]` respectively) do not make the comparison fail: it
returns the boolean `False`. -/
theorem c8_unconnected_returns_bool :
    node_lt twoChainDoc twoChainDoc.nodes.length 1 3 = some (LtRes.val false) ∧
    breadcrumbs twoChainDoc Etype.NEXT twoChainDoc.nodes.length 3 = some [3] ∧
    breadcrumbs twoChainDoc Etype.NEXT twoChainDoc.nodes.length 1 = some [1] := by
  decide

/-- The sources of the incoming `NEXT` edges of the node with uuid `u`: the
candidates the breadcrumb walk can step back to. -/
def incoming_next_srcs (d : Doc) (u : Nat) : List Nat :=
  (node_in_edges d Etype.NEXT u).map (fun e => e.src)

/-- Unfolding of `breadcrumbs` at positive fuel. -/
theorem breadcrumbs_succ (d : Doc) (t : Etype) (fuel u : Nat) :
    breadcrumbs d t (fuel + 1) u =
      match (node_in_edges d t u).head? with
      | none => some [u]
      | some e => (breadcrumbs d t fuel e.src).map (fun l => u :: l) := rfl

/-- A node with no incoming `NEXT` edge is its own complete breadcrumb trail. -/
theorem breadcrumbs_no_incoming (d : Doc) (u fuel : Nat)
    (h : incoming_next_srcs d u = []) (hf : 0 < fuel) :
    breadcrumbs d Etype.NEXT fuel u = some [u] := by
  cases fuel with
  | zero => omega
  | succ f =>
    simp only [incoming_next_srcs] at h
    have hnil : node_in_edges d Etype.NEXT u = [] := List.map_eq_nil_iff.mp h
    rw [breadcrumbs_succ, hnil]
    rfl

/-- Along a backward `NEXT` chain `c`, the breadcrumb trail of the `i`-th node
is the first `i + 1` chain nodes in reverse, for any sufficient fuel. -/
theorem breadcrumbs_chain (d : Doc) (c : List Nat)
    (h0 : ∀ h : 0 < c.length, incoming_next_srcs d (c.get ⟨0, h⟩) = [])
    (hstep : ∀ i (h : i + 1 < c.length),
      incoming_next_srcs d (c.get ⟨i + 1, h⟩) =
        [c.get ⟨i, Nat.lt_of_succ_lt h⟩]) :
    ∀ i fuel (hi : i < c.length), i < fuel →
      breadcrumbs d Etype.NEXT fuel (c.get ⟨i, hi⟩) =
        some ((c.take (i + 1)).reverse) := by
  intro i
  induction i with
  | zero =>
    intro fuel hi hf
    rw [breadcrumbs_no_incoming d _ fuel (h0 hi) hf]
    have h1 : c.take 1 = [c.get ⟨0, hi⟩] := by
      rw [List.take_succ, List.take_zero, List.getElem?_eq_getElem hi]
      simp [List.get_eq_getElem]
    rw [h1]
    rfl
  | succ k ih =>
    intro fuel hi hf
    cases fuel with
    | zero => omega
    | succ f =>
      have hk : k < c.length := Nat.lt_of_succ_lt hi
      have hs := hstep k hi
      simp only [incoming_next_srcs] at hs
      cases hne : node_in_edges d Etype.NEXT (c.get ⟨k + 1, hi⟩) with
      | nil => rw [hne] at hs; simp at hs
      | cons e es =>
        rw [hne] at hs
        simp only [List.map_cons, List.cons.injEq] at hs
        obtain ⟨hesrc, hes⟩ := hs
        rw [breadcrumbs_succ, hne]
        show (breadcrumbs d Etype.NEXT f e.src).map
            (fun l => c.get ⟨k + 1, hi⟩ :: l) =
          some ((c.take (k + 1 + 1)).reverse)
        rw [hesrc, ih f hk (by omega), Option.map_some']
        have ht : c.take (k + 1 + 1) = c.take (k + 1) ++ [c.get ⟨k + 1, hi⟩] := by
          rw [List.take_succ, List.getElem?_eq_getElem hi]
          simp [List.get_eq_getElem]
        rw [ht, List.reverse_append]
        rfl

/-- Membership of the `i`-th node of a duplicate-free list in the reversed
`(j + 1)`-prefix is exactly the order relation `i ≤ j`. -/
theorem mem_take_reverse_iff (c : List Nat) (hnd : c.Nodup) (i j : Nat)
    (hi : i < c.length) :
    (c.get ⟨i, hi⟩ ∈ (c.take (j + 1)).reverse) ↔ i ≤ j := by
  rw [List.mem_reverse]
  constructor
  · intro hmem
    rcases List.mem_iff_getElem.mp hmem with ⟨k, hk, hke⟩
    rw [List.getElem_take, List.get_eq_getElem] at hke
    have hki : k = i := hnd.getElem_inj_iff.mp hke
    rw [List.length_take] at hk
    omega
  · intro hij
    apply List.mem_iff_getElem.mpr
    have hlen : i < (c.take (j + 1)).length := by
      rw [List.length_take]; omega
    refine ⟨i, hlen, ?_⟩
    rw [List.getElem_take, List.get_eq_getElem]

/-- C8 (amended): comparing against a node missing from the document raises
`IncomparableNodes`; along a common backward `NEXT` chain the comparison
returns exactly the boolean `i < j` of the chain positions (`A < B` iff `A`
precedes `B`); but two distinct same-document nodes with no incoming `NEXT`
edges at all — hence not connected by any `NEXT` path — do NOT fail: the
comparison returns a boolean determined solely by registration order. -/
theorem c8_next_order_comparison (d : Doc) (fuel : Nat) :
    (∀ a b, (alLookup d.nodes b).isSome = false →
      node_lt d fuel a b = some (LtRes.raised Err.IncomparableNodes)) ∧
    (∀ c : List Nat, c.Nodup →
      (∀ h : 0 < c.length, incoming_next_srcs d (c.get ⟨0, h⟩) = []) →
      (∀ i (h : i + 1 < c.length),
        incoming_next_srcs d (c.get ⟨i + 1, h⟩) =
          [c.get ⟨i, Nat.lt_of_succ_lt h⟩]) →
      ∀ i j (hi : i < c.length) (hj : j < c.length),
        (alLookup d.nodes (c.get ⟨j, hj⟩)).isSome →
        i < fuel → j < fuel →
        node_lt d fuel (c.get ⟨i, hi⟩) (c.get ⟨j, hj⟩) =
          some (LtRes.val (decide (i < j)))) ∧
    (∀ a b, (alLookup d.nodes b).isSome →
      incoming_next_srcs d a = [] → incoming_next_srcs d b = [] →
      a ≠ b → 0 < fuel →
      node_lt d fuel a b =
        some (LtRes.val (decide (¬ key_index d a < key_index d b)))) := by
  refine ⟨?_, ?_, ?_⟩
  · intro a b hb
    simp [node_lt, hb]
  · intro c hnd h0 hstep i j hi hj hbj hif hjf
    have hbc := breadcrumbs_chain d c h0 hstep
    unfold node_lt
    rw [if_pos hbj]
    by_cases hki : key_index d (c.get ⟨i, hi⟩) < key_index d (c.get ⟨j, hj⟩)
    · rw [if_pos hki, hbc j fuel hj hjf, Option.map_some']
      have hij : i ≠ j := by
        intro he
        subst he
        exact absurd hki (lt_irrefl _)
      have hiff : (c.get ⟨i, hi⟩ ∈ (c.take (j + 1)).reverse) ↔ i < j := by
        rw [mem_take_reverse_iff c hnd i j hi]
        omega
      exact congrArg (fun b => some (LtRes.val b)) (decide_eq_decide.mpr hiff)
    · rw [if_neg hki, hbc i fuel hi hif, Option.map_some']
      have hiff : (c.get ⟨j, hj⟩ ∉ (c.take (i + 1)).reverse) ↔ i < j := by
        rw [mem_take_reverse_iff c hnd j i hj]
        omega
      exact congrArg (fun b => some (LtRes.val b)) (decide_eq_decide.mpr hiff)
  · intro a b hb ha0 hb0 hab hf
    unfold node_lt
    rw [if_pos hb]
    by_cases hk : key_index d a < key_index d b
    · rw [if_pos hk, breadcrumbs_no_incoming d b fuel hb0 hf, Option.map_some']
      simp [hab, hk]
    · rw [if_neg hk, breadcrumbs_no_incoming d a fuel ha0 hf, Option.map_some']
      simp [Ne.symm hab, hk]

theorem c8_next_order_comparison_witness :
    node_lt chainDoc 3 1 99 = some (LtRes.raised Err.IncomparableNodes) ∧
    node_lt chainDoc 3 1 3 = some (LtRes.val true) ∧
    node_lt chainDoc 3 3 1 = some (LtRes.val false) ∧
    node_lt chainDoc 3 2 2 = some (LtRes.val false) ∧
    node_lt twoChainDoc 4 1 3 = some (LtRes.val false) := by
  obtain ⟨h1, h2, _⟩ := c8_next_order_comparison chainDoc 3
  obtain ⟨_, _, h3⟩ := c8_next_order_comparison twoChainDoc 4
  have hstep : ∀ i (h : i + 1 < ([1, 2, 3] : List Nat).length),
      incoming_next_srcs chainDoc (([1, 2, 3] : List Nat).get ⟨i + 1, h⟩) =
        [([1, 2, 3] : List Nat).get ⟨i, Nat.lt_of_succ_lt h⟩] := by
    intro i h
    match i with
    | 0 => exact (by decide : incoming_next_srcs chainDoc 2 = [1])
    | 1 => exact (by decide : incoming_next_srcs chainDoc 3 = [2])
    | n + 2 =>
      exact absurd h (by simp only [List.length_cons, List.length_nil]; omega)
  refine ⟨h1 1 99 (by decide), ?_, ?_, ?_, ?_⟩
  · exact h2 [1, 2, 3] (by decide) (fun _ => (by decide : incoming_next_srcs chainDoc 1 = [])) hstep 0 2 (by decide)
      (by decide) (by decide) (by decide) (by decide)
  · exact h2 [1, 2, 3] (by decide) (fun _ => (by decide : incoming_next_srcs chainDoc 1 = [])) hstep 2 0 (by decide)
      (by decide) (by decide) (by decide) (by decide)
  · exact h2 [1, 2, 3] (by decide) (fun _ => (by decide : incoming_next_srcs chainDoc 1 = [])) hstep 1 1 (by decide)
      (by decide) (by decide) (by decide) (by decide)
  · exact h3 1 3 (by decide) (by decide) (by decide) (by decide) (by decide)

/-- Helper: the success path of `add_edge` — endpoints resolve, the derived
index is new, the edge uuid is new — registers the edge on both endpoints and
appends it to the edge table and the index map. -/
theorem add_edge_success (d : Doc) (e : EdgeData) (six tix : String)
    (sN tN : NodeData)
    (hs : alLookup d.nodes e.src = some sN) (hsix : sN.ix = some six)
    (ht : alLookup d.nodes e.tgt = some tN) (htix : tN.ix = some tix)
    (hfree : (alLookup d.edgeIxMap
      (six ++ "_" ++ tix ++ "_" ++ etypeStr e.etype)).isSome = false)
    (huuid : (alLookup d.edges e.uuid).isSome = false) :
    add_edge d e =
      ({ d with
          nodes := alModify (alModify d.nodes e.src (node_add_edge_upd e))
            e.tgt (node_add_edge_upd e),
          edges := d.edges ++ [(e.uuid, e)],
          edgeIxMap := d.edgeIxMap ++
            [(six ++ "_" ++ tix ++ "_" ++ etypeStr e.etype, e.uuid)] }, none) := by
  have hix : edge_ix d e = some (six ++ "_" ++ tix ++ "_" ++ etypeStr e.etype) := by
    unfold edge_ix
    simp [hs, ht, hsix, htix]
  unfold add_edge
  simp [hix, hfree, alInsert_fresh_eq_append e huuid,
    alInsert_fresh_eq_append e.uuid hfree]

/-- Helper: `add_node` on a `SpanNode` outside reconstruction mode reduces to
`add_edge` of the synthetic `LINK` edge on the updated document. -/
theorem add_node_span_normal (d : Doc) (n : NodeData) (si : SpanInfo) (nix : String)
    (hspan : n.span = some si)
    (hnix : n.ix.getD (d.pfx ++ "_" ++ toString (ix_counter_val d.meta + 1)) = nix)
    (hfresh : (alLookup d.nodeIxMap nix).isSome = false)
    (hmode : d.initFromExisting = false) :
    add_node d n =
      add_edge
        { d with meta := bump_ix_counter d.meta,
                 nodes := alInsert d.nodes n.uuid
                   { n with ix := some nix, incoming := [], outgoing := [] },
                 nodeIxMap := alInsert d.nodeIxMap nix n.uuid,
                 fresh := d.fresh + 1 }
        { uuid := d.fresh, src := si.srcUuid, tgt := n.uuid, etype := Etype.LINK,
          meta := created_by_meta n.meta } := by
  unfold add_node
  simp only [ix_counter_val_bump, hnix]
  rw [if_neg (by simp [hfresh])]
  simp only [hspan, hmode]

/-- Helper: `add_node` on a `SpanNode` in reconstruction mode only registers
the node — no `LINK` edge is synthesized. -/
theorem add_node_span_reconstruction (d : Doc) (n : NodeData) (si : SpanInfo)
    (nix : String)
    (hspan : n.span = some si)
    (hnix : n.ix.getD (d.pfx ++ "_" ++ toString (ix_counter_val d.meta + 1)) = nix)
    (hfresh : (alLookup d.nodeIxMap nix).isSome = false)
    (hmode : d.initFromExisting = true) :
    add_node d n =
      ({ d with meta := bump_ix_counter d.meta,
                nodes := alInsert d.nodes n.uuid
                  { n with ix := some nix, incoming := [], outgoing := [] },
                nodeIxMap := alInsert d.nodeIxMap nix n.uuid }, none) := by
  unfold add_node
  simp only [ix_counter_val_bump, hnix]
  rw [if_neg (by simp [hfresh])]
  simp only [hspan, hmode]

/-- C5: adding a `SpanNode` to a document not in reconstruction mode creates
and inserts exactly one additional edge — a `LINK` edge whose source is the
span's source node and whose target is the span node, carrying a `created_by`
metadata entry copied from the span's metadata when present; in reconstruction
mode (deserialization or multi-graph merge) the edge table is unchanged. -/
theorem c5_span_autolink (d : Doc) (n : NodeData) (si : SpanInfo)
    (srcN : NodeData) (six nix : String)
    (hspan : n.span = some si)
    (hnix : n.ix.getD (d.pfx ++ "_" ++ toString (ix_counter_val d.meta + 1)) = nix)
    (hnixFresh : (alLookup d.nodeIxMap nix).isSome = false)
    (hsrc : alLookup d.nodes si.srcUuid = some srcN)
    (hsix : srcN.ix = some six)
    (hne : si.srcUuid ≠ n.uuid)
    (heuuidFresh : (alLookup d.edges d.fresh).isSome = false)
    (hlixFresh : (alLookup d.edgeIxMap
      (six ++ "_" ++ nix ++ "_" ++ etypeStr Etype.LINK)).isSome = false) :
    (d.initFromExisting = false →
      (add_node d n).2 = none ∧
      (add_node d n).1.edges = d.edges ++
        [(d.fresh, { uuid := d.fresh, src := si.srcUuid, tgt := n.uuid,
                     etype := Etype.LINK, meta := created_by_meta n.meta })]) ∧
    (d.initFromExisting = true →
      (add_node d n).2 = none ∧ (add_node d n).1.edges = d.edges) := by
  constructor
  · intro hmode
    rw [add_node_span_normal d n si nix hspan hnix hnixFresh hmode]
    rw [add_edge_success _ _ six nix srcN
      { n with ix := some nix, incoming := [], outgoing := [] } ?_ hsix ?_ rfl ?_ ?_]
    · constructor
      · rfl
      · simp
    · simp only []
      rw [alLookup_alInsert_ne d.nodes n.uuid si.srcUuid _ hne]
      exact hsrc
    · simp only []
      exact alLookup_alInsert_self d.nodes n.uuid _
    · simpa using hlixFresh
    · simpa using heuuidFresh
  · intro hmode
    rw [add_node_span_reconstruction d n si nix hspan hnix hnixFresh hmode]
    exact ⟨rfl, rfl⟩

/-- A one-node document over which span nodes are added in the C5 witness. -/
def c5BaseDoc : Doc :=
  (init_doc [mkNode 1 "Hello world" none none] [] "p" none 10).1

/-- A span node over the node of `c5BaseDoc`, tagged with `created_by`. -/
def c5Span : NodeData :=
  mkSpanNode 2 (some "s") (mkNode 1 "Hello world" none none) 0 (some 4)
    (some [("created_by", MVal.str "annotator")]) none

theorem c5_span_autolink_witness :
    (add_node c5BaseDoc c5Span).2 = none ∧
    (add_node c5BaseDoc c5Span).1.edges = c5BaseDoc.edges ++
      [(c5BaseDoc.fresh,
        { uuid := c5BaseDoc.fresh, src := 1, tgt := 2, etype := Etype.LINK,
          meta := created_by_meta c5Span.meta })] :=
  (c5_span_autolink c5BaseDoc c5Span
      { srcUuid := 1, start := 0, endPos := 4, label := [] }
      { uuid := 1, ix := some "p_0", content := "Hello world", ntype := none,
        meta := none, incoming := [], outgoing := [], span := none }
      "p_0" "p_1" (by decide) (by decide) (by decide) (by decide) (by decide)
      (by decide) (by decide) (by decide)).1 rfl

/-! Termination and counting of `_unroll_graph` (claim C2). -/

/-- The derived indices of all edges of the document, in table order. -/
def all_edge_ixs (d : Doc) : List String :=
  d.edges.map (fun p => edge_ix_d d p.2)

/-- The `NEXT` edges of the document, in table order. -/
def next_edges (d : Doc) : List EdgeData :=
  (d.edges.filter (fun p => decide (p.2.etype = Etype.NEXT))).map (fun p => p.2)

/-- How many distinct edge indices of the document are not yet breadcrumbs:
the strictly decreasing measure of the traversal loop. -/
def bc_deficit (d : Doc) (bc : List String) : Nat :=
  (((all_edge_ixs d).dedup).filter (fun ix => !decide (ix ∈ bc))).length

/-- How many entries of a breadcrumb segment are indices of `NEXT` edges with
the given target. -/
def tgt_count (d : Doc) (ext : List String) (v : Nat) : Nat :=
  (ext.filter (fun ix => decide (ix ∈
    ((next_edges d).filter (fun e => decide (e.tgt = v))).map (edge_ix_d d)))).length

theorem unroll_aux_nil (d : Doc) (fuel : Nat) (bc : List String) :
    unroll_aux d fuel [] bc = some ([], bc) := by
  cases fuel <;> rfl

theorem unroll_aux_zero (d : Doc) (u : Nat) (rest : List Nat) (bc : List String) :
    unroll_aux d 0 (u :: rest) bc = none := rfl

theorem unroll_aux_succ (d : Doc) (fuel : Nat) (u : Nat) (rest : List Nat)
    (bc : List String) :
    unroll_aux d (fuel + 1) (u :: rest) bc =
      match unroll_aux d fuel (unroll_step d (bc, rest) (node_out_next d u)).2
          (unroll_step d (bc, rest) (node_out_next d u)).1 with
      | some (res, bcF) => some (u :: res, bcF)
      | none => none := rfl

theorem unroll_step_cons (d : Doc) (acc : List String × List Nat)
    (e : EdgeData) (es : List EdgeData) :
    unroll_step d acc (e :: es) =
      unroll_step d
        (if edge_ix_d d e ∈ acc.1 then acc
         else (acc.1 ++ [edge_ix_d d e], acc.2 ++ [e.tgt])) es := rfl

/-- Helper: removing one present element from a duplicate-free list shortens
it by exactly one. -/
theorem length_filter_ne_of_mem {α : Type} [DecidableEq α] (M : List α) (a : α)
    (hnd : M.Nodup) (ha : a ∈ M) :
    (M.filter (fun y => !decide (y = a))).length + 1 = M.length := by
  induction M with
  | nil => simp at ha
  | cons b t ih =>
    rcases List.mem_cons.mp ha with h | h
    · subst h
      have hnotin : a ∉ t := (List.nodup_cons.mp hnd).1
      have ht : t.filter (fun y => !decide (y = a)) = t := by
        apply List.filter_eq_self.mpr
        intro y hy
        simp only [Bool.not_eq_true']
        exact decide_eq_false (fun he : y = a => hnotin (he ▸ hy))
      rw [List.filter_cons]
      simp [ht]
    · have hba : ¬ b = a := fun he => (List.nodup_cons.mp hnd).1 (he ▸ h)
      rw [List.filter_cons]
      have hcond : (!decide (b = a)) = true := by simp [hba]
      rw [if_pos hcond]
      simp only [List.length_cons]
      have hih := ih (List.nodup_cons.mp hnd).2 h
      omega

/-- Helper: recording a fresh edge index strictly decreases the deficit. -/
theorem bc_deficit_append (d : Doc) (bc : List String) (ix : String)
    (hix : ix ∈ all_edge_ixs d) (hnotin : ix ∉ bc) :
    bc_deficit d (bc ++ [ix]) + 1 ≤ bc_deficit d bc := by
  unfold bc_deficit
  have h1 : ((all_edge_ixs d).dedup).filter (fun y => !decide (y ∈ bc ++ [ix])) =
      (((all_edge_ixs d).dedup).filter (fun y => !decide (y ∈ bc))).filter
        (fun y => !decide (y = ix)) := by
    rw [List.filter_filter]
    apply List.filter_congr
    intro y hy
    by_cases h2 : y ∈ bc
    · simp [h2]
    · by_cases h3 : y = ix
      · simp [h3, h2]
      · simp [h2, h3]
  rw [h1]
  have hM : (((all_edge_ixs d).dedup).filter (fun y => !decide (y ∈ bc))).Nodup :=
    ((List.nodup_dedup _).sublist (List.filter_sublist _))
  have haM : ix ∈ ((all_edge_ixs d).dedup).filter (fun y => !decide (y ∈ bc)) := by
    apply List.mem_filter.mpr
    exact ⟨List.mem_dedup.mpr hix, by simp [hnotin]⟩
  rw [length_filter_ne_of_mem _ ix hM haM]

/-- Helper: each step of the edge loop cannot increase deficit-plus-queue. -/
theorem unroll_step_measure (d : Doc) (es : List EdgeData) :
    ∀ (bc : List String) (q : List Nat),
      (∀ e ∈ es, edge_ix_d d e ∈ all_edge_ixs d) →
      bc_deficit d (unroll_step d (bc, q) es).1 +
          (unroll_step d (bc, q) es).2.length ≤
        bc_deficit d bc + q.length := by
  induction es with
  | nil => intro bc q hes; exact Nat.le_refl _
  | cons e es ih =>
    intro bc q hes
    rw [unroll_step_cons]
    by_cases hmem : edge_ix_d d e ∈ bc
    · simp only [hmem, if_pos]
      exact ih bc q (fun x hx => hes x (List.mem_cons_of_mem _ hx))
    · simp only [hmem, if_neg, if_false]
      have hstep := ih (bc ++ [edge_ix_d d e]) (q ++ [e.tgt])
        (fun x hx => hes x (List.mem_cons_of_mem _ hx))
      apply le_trans hstep
      have hd := bc_deficit_append d bc (edge_ix_d d e)
        (hes e (List.mem_cons_self _ _)) hmem
      simp only [List.length_append, List.length_cons, List.length_nil]
      omega

/-- Helper: every edge produced by `node_out_next` is an edge of the document. -/
theorem node_out_next_mem (d : Doc) (u : Nat) (e : EdgeData)
    (h : e ∈ node_out_next d u) : ∃ x, (x, e) ∈ d.edges := by
  unfold node_out_next at h
  rcases hl : alLookup d.nodes u with _ | n
  · rw [hl] at h
    simp at h
  · rw [hl] at h
    unfold outgoing_etype at h
    have h2 := List.mem_of_mem_filter h
    rcases List.mem_filterMap.mp h2 with ⟨x, _, hx2⟩
    exact ⟨x, alLookup_mem hx2⟩

/-- Helper: with fuel at least deficit-plus-queue, the traversal completes. -/
theorem unroll_aux_isSome (d : Doc) :
    ∀ (fuel : Nat) (q : List Nat) (bc : List String),
      bc_deficit d bc + q.length ≤ fuel →
      (unroll_aux d fuel q bc).isSome = true := by
  intro fuel
  induction fuel with
  | zero =>
    intro q bc h
    cases q with
    | nil => rw [unroll_aux_nil]; rfl
    | cons u rest => simp at h
  | succ fuel ih =>
    intro q bc h
    cases q with
    | nil => rw [unroll_aux_nil]; rfl
    | cons u rest =>
      rw [unroll_aux_succ]
      have hes : ∀ e ∈ node_out_next d u, edge_ix_d d e ∈ all_edge_ixs d := by
        intro e he
        rcases node_out_next_mem d u e he with ⟨x, hx⟩
        exact List.mem_map.mpr ⟨(x, e), hx, rfl⟩
      have hm := unroll_step_measure d (node_out_next d u) bc rest hes
      have hrec := ih (unroll_step d (bc, rest) (node_out_next d u)).2
        (unroll_step d (bc, rest) (node_out_next d u)).1
        (by
          apply le_trans hm
          simp only [List.length_cons] at h
          omega)
      rcases hsome : unroll_aux d fuel (unroll_step d (bc, rest) (node_out_next d u)).2
          (unroll_step d (bc, rest) (node_out_next d u)).1 with _ | r
      · rw [hsome] at hrec
        simp at hrec
      · rcases r with ⟨res, bcF⟩
        rfl

/-- Helper: looking the keys of a selection of a duplicate-free table back up
recovers the selected values. -/
theorem filterMap_lookup_of_mem {β : Type} (tbl : List (Nat × β))
    (hn : (keys tbl).Nodup) :
    ∀ (s : List (Nat × β)), (∀ p ∈ s, p ∈ tbl) →
      (keys s).filterMap (alLookup tbl) = s.map (fun p => p.2) := by
  intro s
  induction s with
  | nil => intro _; rfl
  | cons p t ih =>
    intro hs
    have hp : alLookup tbl p.1 = some p.2 :=
      alLookup_of_mem_nodup hn (hs p (List.mem_cons_self _ _))
    simp only [keys, List.map_cons, List.filterMap_cons, hp]
    have ht := ih (fun x hx => hs x (List.mem_cons_of_mem _ hx))
    simp only [keys] at ht
    rw [ht]

/-- Helper: under the adjacency invariant, the outgoing `NEXT` edges of a node
are the `NEXT` edges of the edge table with that source, in table order. -/
theorem node_out_next_eq (d : Doc) (hek : (keys d.edges).Nodup)
    (hadj : ∀ p ∈ d.nodes, p.2.outgoing =
      keys (d.edges.filter (fun q => decide (q.2.src = p.1))))
    (u : Nat) (n : NodeData) (hl : alLookup d.nodes u = some n) :
    node_out_next d u =
      ((d.edges.filter (fun q => decide (q.2.src = u))).map (fun p => p.2)).filter
        (fun e => decide (e.etype = Etype.NEXT)) := by
  unfold node_out_next
  rw [hl]
  show outgoing_etype d n Etype.NEXT = _
  unfold outgoing_etype
  have hout : n.outgoing = keys (d.edges.filter (fun q => decide (q.2.src = u))) :=
    hadj (u, n) (alLookup_mem hl)
  rw [hout]
  rw [filterMap_lookup_of_mem d.edges hek _ (fun p hp => List.mem_of_mem_filter hp)]

/-- Helper: the edge-index list of the `NEXT` edges inherits freedom from
duplicates from the whole table. -/
theorem next_edges_map_nodup (d : Doc)
    (h3 : (d.edges.map (fun p => edge_ix_d d p.2)).Nodup) :
    ((next_edges d).map (edge_ix_d d)).Nodup := by
  unfold next_edges
  rw [List.map_map]
  exact h3.sublist ((List.filter_sublist _).map _)

theorem node_out_next_map_nodup (d : Doc) (hek : (keys d.edges).Nodup)
    (h3 : (d.edges.map (fun p => edge_ix_d d p.2)).Nodup)
    (hadj : ∀ p ∈ d.nodes, p.2.outgoing =
      keys (d.edges.filter (fun q => decide (q.2.src = p.1))))
    (u : Nat) (n : NodeData) (hl : alLookup d.nodes u = some n) :
    ((node_out_next d u).map (edge_ix_d d)).Nodup := by
  rw [node_out_next_eq d hek hadj u n hl]
  apply h3.sublist
  have s1 : List.Sublist
      (((d.edges.filter (fun q => decide (q.2.src = u))).map (fun p => p.2)).filter
        (fun e => decide (e.etype = Etype.NEXT)))
      ((d.edges.filter (fun q => decide (q.2.src = u))).map (fun p => p.2)) :=
    List.filter_sublist _
  have s2 : List.Sublist
      ((d.edges.filter (fun q => decide (q.2.src = u))).map (fun p => p.2))
      (d.edges.map (fun p => p.2)) :=
    (List.filter_sublist _).map _
  have s3 := (s1.trans s2).map (edge_ix_d d)
  rw [List.map_map] at s3
  exact s3

theorem node_out_next_subset_next (d : Doc) (hek : (keys d.edges).Nodup)
    (hadj : ∀ p ∈ d.nodes, p.2.outgoing =
      keys (d.edges.filter (fun q => decide (q.2.src = p.1))))
    (u : Nat) (n : NodeData) (hl : alLookup d.nodes u = some n)
    (e : EdgeData) (he : e ∈ node_out_next d u) : e ∈ next_edges d := by
  rw [node_out_next_eq d hek hadj u n hl] at he
  have h1 := List.mem_filter.mp he
  rcases List.mem_map.mp h1.1 with ⟨p, hp, hpe⟩
  unfold next_edges
  apply List.mem_map.mpr
  refine ⟨p, List.mem_filter.mpr ⟨List.mem_of_mem_filter hp, ?_⟩, hpe⟩
  rw [hpe]
  exact h1.2

/-- Helper: the edge loop appends exactly the not-yet-followed edges (in
order) to the breadcrumbs and their targets to the queue, provided the edge
indices in the batch are duplicate-free. -/
theorem unroll_step_char (d : Doc) (es : List EdgeData) :
    ∀ (bc : List String) (q : List Nat), (es.map (edge_ix_d d)).Nodup →
      unroll_step d (bc, q) es =
        (bc ++ (es.filter (fun e => !decide (edge_ix_d d e ∈ bc))).map (edge_ix_d d),
         q ++ (es.filter (fun e => !decide (edge_ix_d d e ∈ bc))).map (fun e => e.tgt)) := by
  induction es with
  | nil => intro bc q _; simp [unroll_step]
  | cons e es ih =>
    intro bc q hnd
    have hnd2 : edge_ix_d d e ∉ es.map (edge_ix_d d) ∧ (es.map (edge_ix_d d)).Nodup := by
      rw [List.map_cons] at hnd
      exact List.nodup_cons.mp hnd
    rw [unroll_step_cons]
    by_cases hmem : edge_ix_d d e ∈ bc
    · simp only [hmem, if_pos]
      rw [ih bc q hnd2.2]
      rw [List.filter_cons]
      have hc : (!decide (edge_ix_d d e ∈ bc)) = false := by simp [hmem]
      rw [hc]
      simp
    · simp only [hmem, if_neg, if_false]
      rw [ih (bc ++ [edge_ix_d d e]) (q ++ [e.tgt]) hnd2.2]
      rw [List.filter_cons]
      have hc : (!decide (edge_ix_d d e ∈ bc)) = true := by simp [hmem]
      rw [if_pos hc]
      have hfe : es.filter (fun x => !decide (edge_ix_d d x ∈ bc ++ [edge_ix_d d e])) =
          es.filter (fun x => !decide (edge_ix_d d x ∈ bc)) := by
        apply List.filter_congr
        intro x hx
        have hne : edge_ix_d d x ≠ edge_ix_d d e := by
          intro he
          exact hnd2.1 (he ▸ List.mem_map.mpr ⟨x, hx, rfl⟩)
        by_cases hb : edge_ix_d d x ∈ bc
        · simp [hb]
        · simp [hb, hne]
      rw [hfe]
      simp

theorem tgt_count_append (d : Doc) (l1 l2 : List String) (v : Nat) :
    tgt_count d (l1 ++ l2) v = tgt_count d l1 v + tgt_count d l2 v := by
  unfold tgt_count
  rw [List.filter_append, List.length_append]

/-- Helper: on a batch of `NEXT` edges, counting breadcrumb entries that are
indices of edges targeting `v` is counting the batch's targets equal to `v`
(edge indices identify `NEXT` edges uniquely). -/
theorem tgt_count_followed (d : Doc)
    (hnd : ((next_edges d).map (edge_ix_d d)).Nodup) (v : Nat) :
    ∀ (fs : List EdgeData), (∀ e ∈ fs, e ∈ next_edges d) →
      tgt_count d (fs.map (edge_ix_d d)) v = (fs.map (fun e => e.tgt)).count v := by
  intro fs
  induction fs with
  | nil => intro _; rfl
  | cons e fs ih =>
    intro hfs
    have hni : (decide (edge_ix_d d e ∈
        ((next_edges d).filter (fun e2 => decide (e2.tgt = v))).map (edge_ix_d d)))
        = decide (e.tgt = v) := by
      by_cases htv : e.tgt = v
      · have hm : edge_ix_d d e ∈
            ((next_edges d).filter (fun e2 => decide (e2.tgt = v))).map (edge_ix_d d) :=
          List.mem_map.mpr ⟨e, List.mem_filter.mpr
            ⟨hfs e (List.mem_cons_self _ _), by simp [htv]⟩, rfl⟩
        simp [hm, htv]
      · have hnm : edge_ix_d d e ∉
            ((next_edges d).filter (fun e2 => decide (e2.tgt = v))).map (edge_ix_d d) := by
          intro hmem
          rcases List.mem_map.mp hmem with ⟨e2, he2, heq⟩
          have he2n : e2 ∈ next_edges d := List.mem_of_mem_filter he2
          have he2e : e2 = e :=
            List.inj_on_of_nodup_map hnd he2n (hfs e (List.mem_cons_self _ _)) heq
          have htv2 := (List.mem_filter.mp he2).2
          rw [he2e] at htv2
          simp at htv2
          exact htv htv2
        simp [hnm, htv]
    have hih := ih (fun x hx => hfs x (List.mem_cons_of_mem _ hx))
    unfold tgt_count at hih ⊢
    rw [List.map_cons, List.filter_cons, List.map_cons]
    by_cases htv : e.tgt = v
    · rw [hni]
      simp [htv, List.count_cons, hih]
    · rw [hni]
      simp [htv, List.count_cons, hih]

/-- Helper: the traversal only appends fresh breadcrumbs (one per followed
edge), keeps them duplicate-free, and appends each dequeued node once; hence
the visit count of a node is its queue count plus one per followed `NEXT`
edge targeting it. -/
theorem unroll_aux_count (d : Doc)
    (hek : (keys d.edges).Nodup)
    (hixn : (d.edges.map (fun p => edge_ix_d d p.2)).Nodup)
    (hadj : ∀ p ∈ d.nodes, p.2.outgoing =
      keys (d.edges.filter (fun q => decide (q.2.src = p.1)))) :
    ∀ (fuel : Nat) (q : List Nat) (bc : List String) (res : List Nat)
      (bcF : List String),
      unroll_aux d fuel q bc = some (res, bcF) →
      ∃ ext, bcF = bc ++ ext ∧ ext.Nodup ∧ (∀ x ∈ ext, x ∉ bc) ∧
        ∀ v, res.count v = q.count v + tgt_count d ext v := by
  intro fuel
  induction fuel with
  | zero =>
    intro q bc res bcF h
    cases q with
    | nil =>
      rw [unroll_aux_nil] at h
      have h' := Option.some.inj h
      have hres : res = [] := (congrArg Prod.fst h').symm
      have hbc : bcF = bc := (congrArg Prod.snd h').symm
      subst hres
      subst hbc
      exact ⟨[], by simp, List.nodup_nil, by simp, fun v => by simp [tgt_count]⟩
    | cons u rest =>
      rw [unroll_aux_zero] at h
      exact absurd h (by simp)
  | succ fuel ih =>
    intro q bc res bcF h
    cases q with
    | nil =>
      rw [unroll_aux_nil] at h
      have h' := Option.some.inj h
      have hres : res = [] := (congrArg Prod.fst h').symm
      have hbc : bcF = bc := (congrArg Prod.snd h').symm
      subst hres
      subst hbc
      exact ⟨[], by simp, List.nodup_nil, by simp, fun v => by simp [tgt_count]⟩
    | cons u rest =>
      rw [unroll_aux_succ] at h
      have hstep : ∃ fs : List EdgeData,
          unroll_step d (bc, rest) (node_out_next d u) =
            (bc ++ fs.map (edge_ix_d d), rest ++ fs.map (fun e => e.tgt)) ∧
          (fs.map (edge_ix_d d)).Nodup ∧
          (∀ e ∈ fs, e ∈ next_edges d) ∧
          (∀ e ∈ fs, edge_ix_d d e ∉ bc) := by
        rcases hl : alLookup d.nodes u with _ | n
        · refine ⟨[], ?_, List.nodup_nil, by simp, by simp⟩
          have hout : node_out_next d u = [] := by
            unfold node_out_next
            rw [hl]
          rw [hout]
          simp [unroll_step]
        · have hnd := node_out_next_map_nodup d hek hixn hadj u n hl
          refine ⟨(node_out_next d u).filter
            (fun e => !decide (edge_ix_d d e ∈ bc)), ?_, ?_, ?_, ?_⟩
          · exact unroll_step_char d (node_out_next d u) bc rest hnd
          · exact hnd.sublist ((List.filter_sublist _).map _)
          · intro e he
            exact node_out_next_subset_next d hek hadj u n hl e
              (List.mem_of_mem_filter he)
          · intro e he
            have := (List.mem_filter.mp he).2
            simpa using this
      rcases hstep with ⟨fs, hse, hfnd, hfnext, hffresh⟩
      rw [hse] at h
      rcases hrec : unroll_aux d fuel (rest ++ fs.map (fun e => e.tgt))
          (bc ++ fs.map (edge_ix_d d)) with _ | r
      · rw [hrec] at h
        exact absurd h (by simp)
      · rcases r with ⟨res', bcF'⟩
        rw [hrec] at h
        have h' := Option.some.inj h
        have hres : res = u :: res' := (congrArg Prod.fst h').symm
        have hbc : bcF = bcF' := (congrArg Prod.snd h').symm
        subst hres
        subst hbc
        obtain ⟨ext', hbcF, hnd', hnotin', hcount'⟩ := ih _ _ _ _ hrec
        refine ⟨fs.map (edge_ix_d d) ++ ext', ?_, ?_, ?_, ?_⟩
        · rw [hbcF, List.append_assoc]
        · rw [List.nodup_append]
          refine ⟨hfnd, hnd', ?_⟩
          intro x hx hx2
          have := hnotin' x hx2
          exact this (List.mem_append.mpr (Or.inr hx))
        · intro x hx
          rcases List.mem_append.mp hx with h1 | h1
          · rcases List.mem_map.mp h1 with ⟨e, he, hee⟩
            exact hee ▸ hffresh e he
          · intro hbcmem
            exact (hnotin' x h1) (List.mem_append.mpr (Or.inl hbcmem))
        · intro v
          have hc := hcount' v
          rw [tgt_count_append]
          rw [tgt_count_followed d (next_edges_map_nodup d hixn) v fs hfnext]
          simp only [List.count_cons, List.count_append] at hc ⊢
          omega

/-- Helper: fuel `|edges| + 1` always suffices for a single-start traversal,
whatever the shape of the `NEXT` graph. -/
theorem unroll_fuel_enough (d : Doc) (u : Nat) :
    (unroll_aux d (d.edges.length + 1) [u] []).isSome = true := by
  apply unroll_aux_isSome
  have h1 : bc_deficit d [] ≤ d.edges.length := by
    unfold bc_deficit
    calc (((all_edge_ixs d).dedup).filter (fun ix => !decide (ix ∈ ([] : List String)))).length
        ≤ ((all_edge_ixs d).dedup).length := (List.filter_sublist _).length_le
      _ ≤ (all_edge_ixs d).length := (List.dedup_sublist _).length_le
      _ = d.edges.length := by
          unfold all_edge_ixs
          rw [List.length_map]
  simp only [List.length_cons, List.length_nil]
  omega

/-- C2: `_unroll_graph` terminates on every document — cycles and
re-converging `NEXT` paths included — because the breadcrumb guard never lets
the same derived edge index be followed twice; and for well-formed documents
with a root, the traversal visits every node exactly once per distinct
incoming `NEXT` edge followed (plus once for the root itself), preserving
duplicates instead of deduplicating by node: the visit count of `v` is the
number of followed breadcrumbs belonging to `NEXT` edges targeting `v`, plus
one when `v` is the root, and the final breadcrumb list is duplicate-free. -/
theorem c2_unroll_termination_and_counts :
    (∀ (d : Doc) (u : Nat),
      (unroll_aux d (d.edges.length + 1) [u] []).isSome = true) ∧
    (∀ (d : Doc) (r : Nat), WFDoc d → root d = some r →
      ∃ res bcF, unroll_graph d = some (res, bcF) ∧ bcF.Nodup ∧
        ∀ v, res.count v = [r].count v + tgt_count d bcF v) := by
  constructor
  · exact unroll_fuel_enough
  · intro d r hWF hroot
    have hek : (keys d.edges).Nodup := hWF.2.1
    have hixn : (d.edges.map (fun p => edge_ix_d d p.2)).Nodup := hWF.2.2.1
    have hadj : ∀ p ∈ d.nodes, p.2.outgoing =
        keys (d.edges.filter (fun q => decide (q.2.src = p.1))) :=
      fun p hp => (hWF.2.2.2.1 p hp).2.2.2
    have hsome := unroll_fuel_enough d r
    rcases hpr : unroll_aux d (d.edges.length + 1) [r] [] with _ | pr
    · rw [hpr] at hsome
      simp at hsome
    · rcases pr with ⟨res, bcF⟩
      obtain ⟨ext, hext, hnd, _, hcnt⟩ :=
        unroll_aux_count d hek hixn hadj _ _ _ _ _ hpr
      have hbcF : bcF = ext := by simpa using hext
      refine ⟨res, bcF, ?_, ?_, ?_⟩
      · unfold unroll_graph
        rw [hroot]
        exact hpr
      · rw [hbcF]
        exact hnd
      · intro v
        rw [hbcF]
        exact hcnt v

theorem c2_unroll_witness :
    (unroll_aux cycleDoc (cycleDoc.edges.length + 1) [1] []).isSome = true ∧
    (∃ res bcF, unroll_graph convDoc = some (res, bcF) ∧ bcF.Nodup ∧
      ∀ v, res.count v = [1].count v + tgt_count convDoc bcF v) ∧
    (unroll_graph convDoc).map (fun r => r.1) = some [1, 2, 3, 4, 4] ∧
    (unroll_aux cycleDoc (cycleDoc.edges.length + 1) [1] []).map (fun r => r.1) =
      some [1, 2, 1] :=
  ⟨c2_unroll_termination_and_counts.1 cycleDoc 1,
   c2_unroll_termination_and_counts.2 convDoc 1 (by decide) (by decide),
   by decide, by decide⟩

/-! Frame properties of `remove_node` (claim C7). -/

/-- Whether an edge uuid currently denotes an edge incident to node `u`. -/
def is_incident_uuid (d : Doc) (u x : Nat) : Bool :=
  match alLookup d.edges x with
  | some e => decide (e.src = u ∨ e.tgt = u)
  | none => false

/-- A node after all edges incident to `u` were detached from it. -/
def strip_node (d : Doc) (u : Nat) (nd : NodeData) : NodeData :=
  { nd with
    incoming := nd.incoming.filter (fun x => !is_incident_uuid d u x),
    outgoing := nd.outgoing.filter (fun x => !is_incident_uuid d u x) }

theorem remove_edge_edges (d : Doc) (e : EdgeData) :
    (remove_edge d e).edges = alErase d.edges e.uuid := rfl

theorem remove_edge_nodes (d : Doc) (e : EdgeData) :
    (remove_edge d e).nodes =
      alModify (alModify d.nodes e.src (node_remove_edge_upd e)) e.tgt
        (node_remove_edge_upd e) := rfl

theorem alErase_eq_filter {κ β : Type} [DecidableEq κ] (l : List (κ × β)) (k : κ) :
    alErase l k = l.filter (fun p => !decide (p.1 = k)) := by
  induction l with
  | nil => rfl
  | cons p t ih =>
    by_cases hp : p.1 = k
    · simp [alErase, hp, List.filter_cons, ih]
    · simp [alErase, hp, List.filter_cons, ih]

/-- Helper: removing a batch of edges filters their uuids out of the table. -/
theorem foldl_remove_edge_edges (es : List EdgeData) :
    ∀ d : Doc, (es.foldl remove_edge d).edges =
      d.edges.filter (fun p => !decide (p.1 ∈ es.map (fun e => e.uuid))) := by
  induction es with
  | nil =>
    intro d
    simp
  | cons e es ih =>
    intro d
    rw [List.foldl_cons, ih (remove_edge d e), remove_edge_edges,
      alErase_eq_filter, List.filter_filter]
    apply List.filter_congr
    intro p _
    by_cases h1 : p.1 = e.uuid
    · simp [h1]
    · by_cases h2 : p.1 ∈ es.map (fun e => e.uuid)
      · simp [h1, h2]
      · simp [h1, h2]

/-- Helper: removing edges keeps the node-table keys. -/
theorem foldl_remove_edge_node_keys (es : List EdgeData) :
    ∀ d : Doc, keys (es.foldl remove_edge d).nodes = keys d.nodes := by
  induction es with
  | nil => intro d; rfl
  | cons e es ih =>
    intro d
    rw [List.foldl_cons, ih (remove_edge d e), remove_edge_nodes,
      keys_alModify, keys_alModify]

/-- The action of one `remove_edge` on the node-table entry with key `w`. -/
def rm_entry (w : Nat) (e : EdgeData) (nd : NodeData) : NodeData :=
  let v1 := if w = e.src then node_remove_edge_upd e nd else nd
  if w = e.tgt then node_remove_edge_upd e v1 else v1

/-- Helper: the node-table entry at `w` after removing a batch of edges is the
original entry with the per-edge updates replayed on it. -/
theorem alLookup_foldl_remove_edge (es : List EdgeData) :
    ∀ (d : Doc) (w : Nat),
      alLookup (es.foldl remove_edge d).nodes w =
        (alLookup d.nodes w).map
          (fun nd => es.foldl (fun m e => rm_entry w e m) nd) := by
  induction es with
  | nil =>
    intro d w
    cases ho : alLookup d.nodes w <;> simp [List.foldl_nil, ho]
  | cons e es ih =>
    intro d w
    rw [List.foldl_cons, ih (remove_edge d e) w]
    have h1 : alLookup (remove_edge d e).nodes w =
        (alLookup d.nodes w).map (rm_entry w e) := by
      rw [remove_edge_nodes, alLookup_alModify, alLookup_alModify]
      cases ho : alLookup d.nodes w <;> simp [ho, rm_entry]
    rw [h1, Option.map_map]
    cases ho : alLookup d.nodes w <;> simp [ho, Function.comp, List.foldl_cons]

/-- Helper: the per-entry update of an edge incident to `u`, seen from another
node `w`, erases the edge's uuid from the matching adjacency list. -/
theorem rm_entry_eval (w : Nat) (e : EdgeData) (nd : NodeData)
    (huuid : nd.uuid = w) (hst : ¬ e.src = e.tgt) :
    rm_entry w e nd =
      { nd with
        incoming := if e.tgt = w then nd.incoming.erase e.uuid else nd.incoming,
        outgoing := if e.src = w then nd.outgoing.erase e.uuid else nd.outgoing } := by
  have hsymm : ∀ (a b : Nat), ¬ a = b → ¬ b = a := fun a b hab hba => hab hba.symm
  by_cases hsw : e.src = w
  · by_cases htw : e.tgt = w
    · exact absurd (hsw.trans htw.symm) hst
    · simp [rm_entry, node_remove_edge_upd, huuid, hsw, htw, hsymm e.tgt w htw]
  · by_cases htw : e.tgt = w
    · simp [rm_entry, node_remove_edge_upd, huuid, hsw, htw, hsymm e.src w hsw]
    · simp only [rm_entry, node_remove_edge_upd, huuid, if_neg hsw, if_neg htw,
        if_neg (hsymm e.src w hsw), if_neg (hsymm e.tgt w htw)]
      cases nd
      simp_all

/-- Helper: replaying a batch of per-edge updates on one node folds into
conditional erasures on its two adjacency lists. -/
theorem rm_entry_fold (w : Nat) :
    ∀ (es : List EdgeData) (nd : NodeData), nd.uuid = w →
      (∀ e ∈ es, ¬ e.src = e.tgt) →
      es.foldl (fun m e => rm_entry w e m) nd =
        { nd with
          incoming := es.foldl
            (fun l e => if e.tgt = w then l.erase e.uuid else l) nd.incoming,
          outgoing := es.foldl
            (fun l e => if e.src = w then l.erase e.uuid else l) nd.outgoing } := by
  intro es
  induction es with
  | nil =>
    intro nd h1 _
    cases nd
    rfl
  | cons e es ih =>
    intro nd h1 h2
    rw [List.foldl_cons, rm_entry_eval w e nd h1 (h2 e (List.mem_cons_self _ _))]
    rw [ih _ (by simp [h1]) (fun x hx => h2 x (List.mem_cons_of_mem _ hx))]
    rfl

/-- Helper: a fold of conditional erasures over a duplicate-free list filters
out exactly the uuids of the selected edges. -/
theorem foldl_cond_erase (P : EdgeData → Prop) [DecidablePred P] :
    ∀ (es : List EdgeData) (l0 : List Nat), l0.Nodup →
      es.foldl (fun l e => if P e then l.erase e.uuid else l) l0 =
        l0.filter (fun x => !decide (x ∈
          (es.filter (fun e => decide (P e))).map (fun e => e.uuid))) := by
  intro es
  induction es with
  | nil =>
    intro l0 _
    simp
  | cons e es ih =>
    intro l0 h
    by_cases hp : P e
    · have hR : (e :: es).filter (fun e2 => decide (P e2)) =
          e :: es.filter (fun e2 => decide (P e2)) := by
        rw [List.filter_cons, if_pos (by simp [hp])]
      rw [List.foldl_cons, if_pos hp, ih (l0.erase e.uuid) (h.erase e.uuid),
        h.erase_eq_filter e.uuid, List.filter_filter, hR, List.map_cons]
      apply List.filter_congr
      intro x _
      by_cases h1 : x = e.uuid
      · simp [h1]
      · by_cases h2 : x ∈ (es.filter (fun e2 => decide (P e2))).map (fun e2 => e2.uuid)
        · simp [h1, h2]
        · simp [h1, h2]
    · have hR : (e :: es).filter (fun e2 => decide (P e2)) =
          es.filter (fun e2 => decide (P e2)) := by
        rw [List.filter_cons, if_neg (by simp [hp])]
      rw [List.foldl_cons, if_neg hp, ih l0 h, hR]

/-- Helper: resolving a list of present keys through a consistent table yields
matching edge objects in order. -/
theorem resolve_all_spec (tbl : List (Nat × EdgeData))
    (hu : ∀ q ∈ tbl, q.2.uuid = q.1) :
    ∀ xs : List Nat, (∀ x ∈ xs, x ∈ keys tbl) →
      ∃ es, resolve_all tbl xs = some es ∧
        es.map (fun e => e.uuid) = xs ∧ ∀ e ∈ es, (e.uuid, e) ∈ tbl := by
  intro xs
  induction xs with
  | nil => intro _; exact ⟨[], rfl, rfl, by simp⟩
  | cons x xs ih =>
    intro hxs
    have hx := hxs x (List.mem_cons_self _ _)
    have hs := alLookup_isSome_of_mem_keys hx
    rcases hl : alLookup tbl x with _ | e
    · rw [hl] at hs
      simp at hs
    · have hmem : (x, e) ∈ tbl := alLookup_mem hl
      have hue : e.uuid = x := hu (x, e) hmem
      obtain ⟨es, h1, h2, h3⟩ := ih (fun y hy => hxs y (List.mem_cons_of_mem _ hy))
      refine ⟨e :: es, ?_, ?_, ?_⟩
      · unfold resolve_all
        rw [hl, h1]
        rfl
      · rw [List.map_cons, h2, hue]
      · intro e2 he2
        rcases List.mem_cons.mp he2 with h | h
        · subst h
          rw [hue]
          exact hmem
        · exact h3 e2 h

/-- Helper: for an entry of a duplicate-free table, membership of its key in
the keys of a selection is just the selection predicate. -/
theorem mem_keys_filter_of_mem {β : Type} {tbl : List (Nat × β)}
    (hn : (keys tbl).Nodup) (pr : Nat × β → Bool) {p : Nat × β} (hp : p ∈ tbl) :
    (p.1 ∈ keys (tbl.filter pr)) ↔ pr p = true := by
  constructor
  · intro h
    rcases List.mem_map.mp h with ⟨q, hq, hq1⟩
    have hqt : q ∈ tbl := List.mem_of_mem_filter hq
    have hqp : q = p := entries_eq_of_nodup_keys hn hqt hp hq1
    rw [← hqp]
    exact (List.mem_filter.mp hq).2
  · intro h
    exact List.mem_map.mpr ⟨p, List.mem_filter.mpr ⟨hp, h⟩, rfl⟩

/-- Helper: on the node itself (uuid matching), the direct object update of
`Node.remove_edge` coincides with the table-entry update. -/
theorem node_remove_edge_upd_eq_rm_entry (u : Nat) (e : EdgeData) (m : NodeData)
    (huuid : m.uuid = u) (hst : ¬ e.src = e.tgt) :
    node_remove_edge_upd e m = rm_entry u e m := by
  subst huuid
  simp only [rm_entry]
  by_cases hsw : e.src = m.uuid
  · have htw2 : ¬ m.uuid = e.tgt :=
      fun hh => hst (hsw.trans hh)
    rw [if_pos hsw.symm, if_neg htw2]
  · have hsw2 : ¬ m.uuid = e.src := fun hh => hsw hh.symm
    rw [if_neg hsw2]
    by_cases htw : e.tgt = m.uuid
    · rw [if_pos htw.symm]
    · rw [if_neg (fun hh : m.uuid = e.tgt => htw hh.symm)]
      unfold node_remove_edge_upd
      rw [if_neg hsw, if_neg htw]

theorem node_remove_edge_upd_uuid (e : EdgeData) (m : NodeData) :
    (node_remove_edge_upd e m).uuid = m.uuid := by
  unfold node_remove_edge_upd
  by_cases h1 : e.src = m.uuid
  · simp [h1]
  · by_cases h2 : e.tgt = m.uuid
    · simp [h1, h2]
    · simp [h1, h2]

theorem rm_entry_uuid (w : Nat) (e : EdgeData) (m : NodeData) :
    (rm_entry w e m).uuid = m.uuid := by
  simp only [rm_entry]
  split
  · rw [node_remove_edge_upd_uuid]
    split
    · rw [node_remove_edge_upd_uuid]
    · rfl
  · split
    · rw [node_remove_edge_upd_uuid]
    · rfl

/-- Helper: replaying the `Node.remove_edge` mutations on the removed node
object equals replaying the table-entry updates. -/
theorem obj_fold_eq_rm_entry_fold (u : Nat) :
    ∀ (es : List EdgeData) (m : NodeData), m.uuid = u →
      (∀ e ∈ es, ¬ e.src = e.tgt) →
      es.foldl (fun m2 e => node_remove_edge_upd e m2) m =
        es.foldl (fun m2 e => rm_entry u e m2) m := by
  intro es
  induction es with
  | nil => intro m _ _; rfl
  | cons e es ih =>
    intro m hm hst
    rw [List.foldl_cons, List.foldl_cons,
      node_remove_edge_upd_eq_rm_entry u e m hm (hst e (List.mem_cons_self _ _))]
    apply ih
    · rw [rm_entry_uuid]
      exact hm
    · exact fun x hx => hst x (List.mem_cons_of_mem _ hx)

/-- Helper: a key in an association list has an entry. -/
theorem exists_entry_of_mem_keys {β : Type} {tbl : List (Nat × β)} {x : Nat}
    (h : x ∈ keys tbl) : ∃ v, (x, v) ∈ tbl := by
  rcases List.mem_map.mp h with ⟨q, hq, hq1⟩
  exact ⟨q.2, by rw [← hq1]; exact hq⟩

/-- Helper: on the incoming list of another node `w`, erasing the uuids of the
removed batch is exactly stripping the edges incident to `u`. -/
theorem strip_filter_eq_in (d : Doc) (u w : Nat) (hw : ¬ w = u)
    (hek : (keys d.edges).Nodup) (es : List EdgeData)
    (hes_inc : ∀ e ∈ es, e.src = u ∨ e.tgt = u)
    (hmemtbl : ∀ e ∈ es, (e.uuid, e) ∈ d.edges)
    (hcover : ∀ q ∈ d.edges, (q.2.src = u ∨ q.2.tgt = u) →
      q.1 ∈ es.map (fun e => e.uuid))
    (l : List Nat)
    (hl : l = keys (d.edges.filter (fun q => decide (q.2.tgt = w)))) :
    l.filter (fun x => !decide (x ∈
        (es.filter (fun e => decide (e.tgt = w))).map (fun e => e.uuid))) =
      l.filter (fun x => !is_incident_uuid d u x) := by
  apply List.filter_congr
  intro x hx
  rw [hl] at hx
  obtain ⟨q2, hq2⟩ := exists_entry_of_mem_keys hx
  have hq2e : (x, q2) ∈ d.edges := List.mem_of_mem_filter hq2
  have hq2t : q2.tgt = w := by
    have h2 := (List.mem_filter.mp hq2).2
    simpa using h2
  have hlx : alLookup d.edges x = some q2 := alLookup_of_mem_nodup hek hq2e
  have huniq : ∀ e ∈ es, e.uuid = x → e = q2 := by
    intro e he heq
    have h1 := hmemtbl e he
    rw [heq] at h1
    have h2 := entries_eq_of_nodup_keys hek h1 hq2e rfl
    exact congrArg Prod.snd h2
  unfold is_incident_uuid
  rw [hlx]
  by_cases hI : q2.src = u ∨ q2.tgt = u
  · have hsrc : q2.src = u := by
      rcases hI with h | h
      · exact h
      · exact absurd (hq2t.symm.trans h) hw
    have hxxs : x ∈ es.map (fun e => e.uuid) :=
      hcover (x, q2) hq2e (Or.inl hsrc)
    rcases List.mem_map.mp hxxs with ⟨e, he, heq⟩
    have heq2 : e = q2 := huniq e he heq
    have hxin : x ∈ (es.filter (fun e2 => decide (e2.tgt = w))).map
        (fun e2 => e2.uuid) :=
      List.mem_map.mpr ⟨e, List.mem_filter.mpr ⟨he, by simp [heq2, hq2t]⟩, heq⟩
    simp [hxin, hI]
  · have hxnot : x ∉ (es.filter (fun e2 => decide (e2.tgt = w))).map
        (fun e2 => e2.uuid) := by
      intro hmm
      rcases List.mem_map.mp hmm with ⟨e, he, heq⟩
      have hef := List.mem_of_mem_filter he
      have heq2 : e = q2 := huniq e hef heq
      have hinc := hes_inc e hef
      rw [heq2] at hinc
      exact hI (Or.symm (Or.symm hinc))
    simp [hxnot, hI]

/-- Helper: the outgoing-list counterpart of `strip_filter_eq_in`. -/
theorem strip_filter_eq_out (d : Doc) (u w : Nat) (hw : ¬ w = u)
    (hek : (keys d.edges).Nodup) (es : List EdgeData)
    (hes_inc : ∀ e ∈ es, e.src = u ∨ e.tgt = u)
    (hmemtbl : ∀ e ∈ es, (e.uuid, e) ∈ d.edges)
    (hcover : ∀ q ∈ d.edges, (q.2.src = u ∨ q.2.tgt = u) →
      q.1 ∈ es.map (fun e => e.uuid))
    (l : List Nat)
    (hl : l = keys (d.edges.filter (fun q => decide (q.2.src = w)))) :
    l.filter (fun x => !decide (x ∈
        (es.filter (fun e => decide (e.src = w))).map (fun e => e.uuid))) =
      l.filter (fun x => !is_incident_uuid d u x) := by
  apply List.filter_congr
  intro x hx
  rw [hl] at hx
  obtain ⟨q2, hq2⟩ := exists_entry_of_mem_keys hx
  have hq2e : (x, q2) ∈ d.edges := List.mem_of_mem_filter hq2
  have hq2s : q2.src = w := by
    have h2 := (List.mem_filter.mp hq2).2
    simpa using h2
  have hlx : alLookup d.edges x = some q2 := alLookup_of_mem_nodup hek hq2e
  have huniq : ∀ e ∈ es, e.uuid = x → e = q2 := by
    intro e he heq
    have h1 := hmemtbl e he
    rw [heq] at h1
    have h2 := entries_eq_of_nodup_keys hek h1 hq2e rfl
    exact congrArg Prod.snd h2
  unfold is_incident_uuid
  rw [hlx]
  by_cases hI : q2.src = u ∨ q2.tgt = u
  · have htgt : q2.tgt = u := by
      rcases hI with h | h
      · exact absurd (hq2s.symm.trans h) hw
      · exact h
    have hxxs : x ∈ es.map (fun e => e.uuid) :=
      hcover (x, q2) hq2e (Or.inr htgt)
    rcases List.mem_map.mp hxxs with ⟨e, he, heq⟩
    have heq2 : e = q2 := huniq e he heq
    have hxin : x ∈ (es.filter (fun e2 => decide (e2.src = w))).map
        (fun e2 => e2.uuid) :=
      List.mem_map.mpr ⟨e, List.mem_filter.mpr ⟨he, by simp [heq2, hq2s]⟩, heq⟩
    simp [hxin, hI]
  · have hxnot : x ∉ (es.filter (fun e2 => decide (e2.src = w))).map
        (fun e2 => e2.uuid) := by
      intro hmm
      rcases List.mem_map.mp hmm with ⟨e, he, heq⟩
      have hef := List.mem_of_mem_filter he
      have heq2 : e = q2 := huniq e hef heq
      have hinc := hes_inc e hef
      rw [heq2] at hinc
      exact hI hinc
    simp [hxnot, hI]

/-- C7: removing a node removes exactly the edges incident to it (both
directions) and the node itself: the edge table keeps precisely the
non-incident edges, the node table loses exactly the removed node, and every
other node keeps all its data with only the uuids of the removed incident
edges filtered out of its adjacency lists.  The returned node object has been
detached from every incident edge, and removing it a second time fails with
`NotFound` leaving the document unchanged. -/
theorem c7_remove_node_frame (d : Doc) (u : Nat) (nObj : NodeData)
    (hWF : WFDoc d) (hl : alLookup d.nodes u = some nObj) :
    ∃ d' n', remove_node d nObj = (d', n', none) ∧
      d'.edges = d.edges.filter (fun p => !decide (p.2.src = u ∨ p.2.tgt = u)) ∧
      keys d'.nodes = (keys d.nodes).filter (fun w => !decide (w = u)) ∧
      (∀ w, ¬ w = u →
        alLookup d'.nodes w = (alLookup d.nodes w).map (strip_node d u)) ∧
      n'.incoming = [] ∧ n'.outgoing = [] ∧
      remove_node d' n' = (d', n', some Err.NotFound) := by
  have hek : (keys d.edges).Nodup := hWF.2.1
  have hnodeP := hWF.2.2.2.1
  have hedgeP := hWF.2.2.2.2
  have hnode := hnodeP (u, nObj) (alLookup_mem hl)
  have huuid : nObj.uuid = u := hnode.1
  have hixs : nObj.ix.isSome = true := hnode.2.1
  have hin : nObj.incoming =
      keys (d.edges.filter (fun q => decide (q.2.tgt = u))) := hnode.2.2.1
  have hout : nObj.outgoing =
      keys (d.edges.filter (fun q => decide (q.2.src = u))) := hnode.2.2.2
  have hxsmem : ∀ x ∈ nObj.incoming ++ nObj.outgoing, x ∈ keys d.edges := by
    intro x hx
    rcases List.mem_append.mp hx with h | h
    · rw [hin] at h
      exact ((List.filter_sublist d.edges).map (fun p => p.1)).subset h
    · rw [hout] at h
      exact ((List.filter_sublist d.edges).map (fun p => p.1)).subset h
  obtain ⟨es, hres, hmap, hmemtbl⟩ :=
    resolve_all_spec d.edges (fun q hq => (hedgeP q hq).1)
      (nObj.incoming ++ nObj.outgoing) hxsmem
  have hes_st : ∀ e ∈ es, ¬ e.src = e.tgt :=
    fun e he => (hedgeP (e.uuid, e) (hmemtbl e he)).2.1
  have hxs_iff : ∀ q ∈ d.edges,
      (q.1 ∈ es.map (fun e => e.uuid) ↔ (q.2.tgt = u ∨ q.2.src = u)) := by
    intro q hq
    rw [hmap, List.mem_append, hin, hout,
      mem_keys_filter_of_mem hek _ hq, mem_keys_filter_of_mem hek _ hq]
    simp
  have hes_inc : ∀ e ∈ es, e.src = u ∨ e.tgt = u := by
    intro e he
    have hm : e.uuid ∈ es.map (fun e2 => e2.uuid) := List.mem_map.mpr ⟨e, he, rfl⟩
    have h2 := (hxs_iff (e.uuid, e) (hmemtbl e he)).mp hm
    exact h2.symm
  have hcover : ∀ q ∈ d.edges, (q.2.src = u ∨ q.2.tgt = u) →
      q.1 ∈ es.map (fun e => e.uuid) :=
    fun q hq h => (hxs_iff q hq).mpr h.symm
  obtain ⟨ix0, hix0⟩ := Option.isSome_iff_exists.mp hixs
  have hlookup_u : alLookup (es.foldl remove_edge d).nodes u =
      some (es.foldl (fun m e => rm_entry u e m) nObj) := by
    rw [alLookup_foldl_remove_edge, hl]
    rfl
  have hn1 : es.foldl (fun m e => node_remove_edge_upd e m) nObj =
      { nObj with
        incoming := es.foldl
          (fun l e => if e.tgt = u then l.erase e.uuid else l) nObj.incoming,
        outgoing := es.foldl
          (fun l e => if e.src = u then l.erase e.uuid else l) nObj.outgoing } := by
    rw [obj_fold_eq_rm_entry_fold u es nObj huuid hes_st,
      rm_entry_fold u es nObj huuid hes_st]
  have hin_nodup : nObj.incoming.Nodup := by
    rw [hin]
    exact hek.sublist ((List.filter_sublist _).map _)
  have hout_nodup : nObj.outgoing.Nodup := by
    rw [hout]
    exact hek.sublist ((List.filter_sublist _).map _)
  have hni : (es.foldl (fun m e => node_remove_edge_upd e m) nObj).incoming = [] := by
    rw [hn1]
    show es.foldl (fun l e => if e.tgt = u then l.erase e.uuid else l)
      nObj.incoming = []
    rw [foldl_cond_erase _ es nObj.incoming hin_nodup]
    rw [List.filter_eq_nil_iff]
    intro x hx
    have hxk : x ∈ keys (d.edges.filter (fun q => decide (q.2.tgt = u))) := by
      rw [← hin]
      exact hx
    obtain ⟨q2, hq2⟩ := exists_entry_of_mem_keys hxk
    have hq2e : (x, q2) ∈ d.edges := List.mem_of_mem_filter hq2
    have hq2t : q2.tgt = u := by
      have h2 := (List.mem_filter.mp hq2).2
      simpa using h2
    have hxxs : x ∈ es.map (fun e => e.uuid) :=
      hcover (x, q2) hq2e (Or.inr hq2t)
    rcases List.mem_map.mp hxxs with ⟨e, he, heq⟩
    have heq2 : e = q2 := by
      have h1 := hmemtbl e he
      rw [heq] at h1
      exact congrArg Prod.snd (entries_eq_of_nodup_keys hek h1 hq2e rfl)
    have hxin : x ∈ (es.filter (fun e2 => decide (e2.tgt = u))).map
        (fun e2 => e2.uuid) :=
      List.mem_map.mpr ⟨e, List.mem_filter.mpr ⟨he, by simp [heq2, hq2t]⟩, heq⟩
    simp [hxin]
  have hno : (es.foldl (fun m e => node_remove_edge_upd e m) nObj).outgoing = [] := by
    rw [hn1]
    show es.foldl (fun l e => if e.src = u then l.erase e.uuid else l)
      nObj.outgoing = []
    rw [foldl_cond_erase _ es nObj.outgoing hout_nodup]
    rw [List.filter_eq_nil_iff]
    intro x hx
    have hxk : x ∈ keys (d.edges.filter (fun q => decide (q.2.src = u))) := by
      rw [← hout]
      exact hx
    obtain ⟨q2, hq2⟩ := exists_entry_of_mem_keys hxk
    have hq2e : (x, q2) ∈ d.edges := List.mem_of_mem_filter hq2
    have hq2s : q2.src = u := by
      have h2 := (List.mem_filter.mp hq2).2
      simpa using h2
    have hxxs : x ∈ es.map (fun e => e.uuid) :=
      hcover (x, q2) hq2e (Or.inl hq2s)
    rcases List.mem_map.mp hxxs with ⟨e, he, heq⟩
    have heq2 : e = q2 := by
      have h1 := hmemtbl e he
      rw [heq] at h1
      exact congrArg Prod.snd (entries_eq_of_nodup_keys hek h1 hq2e rfl)
    have hxin : x ∈ (es.filter (fun e2 => decide (e2.src = u))).map
        (fun e2 => e2.uuid) :=
      List.mem_map.mpr ⟨e, List.mem_filter.mpr ⟨he, by simp [heq2, hq2s]⟩, heq⟩
    simp [hxin]
  have hn1u : (es.foldl (fun m e => node_remove_edge_upd e m) nObj).uuid = u := by
    rw [hn1]
    exact huuid
  refine ⟨{ es.foldl remove_edge d with
            nodes := alErase (es.foldl remove_edge d).nodes u,
            nodeIxMap := alErase (es.foldl remove_edge d).nodeIxMap ix0 },
          es.foldl (fun m e => node_remove_edge_upd e m) nObj,
          ?_, ?_, ?_, ?_, hni, hno, ?_⟩
  · unfold remove_node
    rw [hres]
    simp only [huuid, hlookup_u, hix0, Option.isSome_some, if_pos]
  · show (es.foldl remove_edge d).edges = _
    rw [foldl_remove_edge_edges]
    apply List.filter_congr
    intro p hp
    have hiff := hxs_iff p hp
    by_cases hcase : p.2.src = u ∨ p.2.tgt = u
    · have hmm : p.1 ∈ es.map (fun e => e.uuid) := hiff.mpr hcase.symm
      simp [hmm, hcase]
    · have hmm : p.1 ∉ es.map (fun e => e.uuid) :=
        fun hmm => hcase ((hiff.mp hmm).symm)
      simp [hmm, hcase]
  · show keys (alErase (es.foldl remove_edge d).nodes u) = _
    rw [keys_alErase, foldl_remove_edge_node_keys]
  · intro w hw
    show alLookup (alErase (es.foldl remove_edge d).nodes u) w = _
    rw [alLookup_alErase, if_neg hw, alLookup_foldl_remove_edge]
    rcases hlw : alLookup d.nodes w with _ | nd
    · rfl
    · have hnodeW := hnodeP (w, nd) (alLookup_mem hlw)
      have hwuuid : nd.uuid = w := hnodeW.1
      have hinW : nd.incoming =
          keys (d.edges.filter (fun q => decide (q.2.tgt = w))) := hnodeW.2.2.1
      have houtW : nd.outgoing =
          keys (d.edges.filter (fun q => decide (q.2.src = w))) := hnodeW.2.2.2
      have hinWnd : nd.incoming.Nodup := by
        rw [hinW]
        exact hek.sublist ((List.filter_sublist _).map _)
      have houtWnd : nd.outgoing.Nodup := by
        rw [houtW]
        exact hek.sublist ((List.filter_sublist _).map _)
      rw [Option.map_some']
      congr 1
      rw [rm_entry_fold w es nd hwuuid hes_st,
        foldl_cond_erase _ es nd.incoming hinWnd,
        foldl_cond_erase _ es nd.outgoing houtWnd]
      unfold strip_node
      rw [strip_filter_eq_in d u w hw hek es hes_inc hmemtbl hcover nd.incoming hinW,
        strip_filter_eq_out d u w hw hek es hes_inc hmemtbl hcover nd.outgoing houtW]
  · unfold remove_node
    rw [hni, hno]
    show (if (alLookup (alErase (es.foldl remove_edge d).nodes u)
        (es.foldl (fun m e => node_remove_edge_upd e m) nObj).uuid).isSome = true
      then _ else _) = _
    rw [hn1u, alLookup_alErase, if_pos rfl]
    simp

/-- The title node of `scenarioDoc` as it sits in the document. -/
def c7Node : NodeData :=
  { uuid := 1, ix := some "p_0", content := "A", ntype := some "title",
    meta := none, incoming := [], outgoing := [21, 22], span := none }

theorem c7_remove_node_frame_witness :
    ∃ d' n', remove_node scenarioDoc c7Node = (d', n', none) ∧
      d'.edges = scenarioDoc.edges.filter
        (fun p => !decide (p.2.src = 1 ∨ p.2.tgt = 1)) ∧
      keys d'.nodes = (keys scenarioDoc.nodes).filter (fun w => !decide (w = 1)) ∧
      (∀ w, ¬ w = 1 → alLookup d'.nodes w =
        (alLookup scenarioDoc.nodes w).map (strip_node scenarioDoc 1)) ∧
      n'.incoming = [] ∧ n'.outgoing = [] ∧
      remove_node d' n' = (d', n', some Err.NotFound) :=
  c7_remove_node_frame scenarioDoc 1 c7Node (by decide) (by decide)
